import Mathlib

/-!
Verification development for the route-planning core in
`src/android/app/src/main/cpp/solver.cpp`.

Times are modelled as exact rationals (the spec fixes a real-valued time
domain; the reference implementation uses 32-bit floats over small values).
Machine `int` casts of nonnegative values truncate toward zero, modelled by
`cIntOfRat`.  Fallible operations (the C code's `-1` / `-1.0f` / `INF_TIME`
sentinels) are modelled with `Option`.
-/

/-- Index of the Start node (`START_IDX` in solver.cpp). -/
def START_IDX : ℕ := 17

/-- Index of the Finish node (`FINISH_IDX` in solver.cpp). -/
def FINISH_IDX : ℕ := 18

/-- The input record of `solve` (struct `SolverInput`).  Array fields become
functions; `speed` and `naismith` are carried but never consulted. -/
structure SolverInput where
  n_checkpoints : ℕ
  n_slots : ℕ
  travel_time : ℕ → ℕ → ℚ
  open_at : ℕ → ℕ → Bool
  finish_open : ℕ → Bool
  slot_starts : ℕ → ℤ
  speed : ℚ
  dwell : ℤ
  naismith : ℚ
  start_time : ℤ
  end_time : ℤ

/-- The result record of `solve` (struct `SolverResult`); `route_length` is
the length of `route`. -/
structure SolverResult where
  count : ℕ
  route : List ℕ
  finish_time : ℚ
deriving DecidableEq

/-- C truncation of a rational to an `int`: rounding toward zero. -/
def cIntOfRat (q : ℚ) : ℤ := q.num.tdiv q.den

/-- The local computation of `arrival_to_slot_index` (solver.cpp lines 54-57):
`whole = (int) arrival`, `h = whole / 60`, `m = whole % 60`,
`slot_time = h * 60 + (m > 30 ? 30 : 0)`, with C truncating division. -/
def slotTimeOf (arrival_minutes : ℚ) : ℤ :=
  (cIntOfRat arrival_minutes).tdiv 60 * 60 +
    (if (cIntOfRat arrival_minutes).tmod 60 > 30 then 30 else 0)

/-- `arrival_to_slot_index` from solver.cpp: map an arrival time to the index
of its half-hour service slot; `none` models the C return value `-1`. -/
def arrival_to_slot_index (inp : SolverInput) (arrival_minutes : ℚ) : Option ℕ :=
  if arrival_minutes < (inp.slot_starts 0 : ℚ) then none
  else if slotTimeOf arrival_minutes > inp.slot_starts (inp.n_slots - 1) then
    some (inp.n_slots - 1)
  else (List.range inp.n_slots).find?
    (fun s => inp.slot_starts s = slotTimeOf arrival_minutes)

/-- `find_next_open_time` from solver.cpp: earliest time `≥ arrival_minutes`
at which checkpoint `cp_idx` is open; `none` models the C return `-1.0f`.
A below-range slot index (`-1`) is clamped to `0` before the scan. -/
def find_next_open_time (inp : SolverInput) (cp_idx : ℕ) (arrival_minutes : ℚ) :
    Option ℚ :=
  (((List.range' ((arrival_to_slot_index inp arrival_minutes).getD 0)
      (inp.n_slots - (arrival_to_slot_index inp arrival_minutes).getD 0)).find?
    (fun s => inp.open_at cp_idx s)).map
    (fun s => max arrival_minutes (inp.slot_starts s : ℚ)))

/-- `can_reach_finish` from solver.cpp: whether Finish can be reached from
`current_idx`, departing at `current_time`, inside an open Finish slot and no
later than `end_time`.  A below-range slot index is not clamped here. -/
def can_reach_finish (inp : SolverInput) (current_time : ℚ) (current_idx : ℕ) :
    Bool :=
  if current_time + inp.travel_time current_idx FINISH_IDX > (inp.end_time : ℚ) then
    false
  else
    match arrival_to_slot_index inp
        (current_time + inp.travel_time current_idx FINISH_IDX) with
    | none => false
    | some slot =>
      if inp.n_slots ≤ slot then false
      else (List.range' slot (inp.n_slots - slot)).any
        (fun s => inp.finish_open s &&
          decide (max (current_time + inp.travel_time current_idx FINISH_IDX)
            (inp.slot_starts s : ℚ) ≤ (inp.end_time : ℚ)))

/-- One visit of checkpoint `j` arriving at `arr`, without the pruning guard:
wait for an open slot, dwell, and fail if departure exceeds `end_time`. -/
def openDepart (inp : SolverInput) (j : ℕ) (arr : ℚ) : Option ℚ :=
  match find_next_open_time inp j arr with
  | none => none
  | some open_time =>
    if open_time + (inp.dwell : ℚ) > (inp.end_time : ℚ) then none
    else some (open_time + (inp.dwell : ℚ))

/-- One visit of checkpoint `j` arriving at `arr`, including the forward
pruning guard `can_reach_finish`, exactly as in the DP fill of `solve`. -/
def stepVisit (inp : SolverInput) (j : ℕ) (arr : ℚ) : Option ℚ :=
  match openDepart inp j arr with
  | none => none
  | some depart => if can_reach_finish inp depart j then some depart else none

/-- Initialization of the DP (`solve`, loop "Start -> each intermediate CP"):
value of state `({j}, j)`. -/
def initVal (inp : SolverInput) (j : ℕ) : Option ℚ :=
  stepVisit inp j ((inp.start_time : ℚ) + inp.travel_time START_IDX j)

/-- A DP transition (`solve`, main DP loop): extend a state with departure
time `d` at checkpoint `i` by visiting `j`. -/
def transVal (inp : SolverInput) (d : ℚ) (i j : ℕ) : Option ℚ :=
  if d + inp.travel_time i j > (inp.end_time : ℚ) then none
  else stepVisit inp j (d + inp.travel_time i j)

/-- Minimum of two optional values, `none` being the C sentinel `INF_TIME`. -/
def minOpt (a b : Option ℚ) : Option ℚ :=
  match a, b with
  | none, b => b
  | a, none => a
  | some x, some y => some (min x y)

/-- Fuel-indexed DP table.  `dpF inp f mask j` is the value the DP array of
`solve` holds at state `(mask, j)` after the fill, provided `f ≥ mask`;
the fuel only drives the recursion (the predecessor mask is smaller). -/
def dpF (inp : SolverInput) : ℕ → ℕ → ℕ → Option ℚ
  | 0, _, _ => none
  | fuel+1, mask, j =>
    if j < inp.n_checkpoints ∧ mask.testBit j then
      if mask = 2^j then initVal inp j
      else
        ((List.range inp.n_checkpoints).map (fun i =>
          if (mask ^^^ 2^j).testBit i then
            match dpF inp fuel (mask ^^^ 2^j) i with
            | none => none
            | some d => transVal inp d i j
          else none)).foldr minOpt none
    else none

/-- The DP table of `solve` after the fill: `dp inp mask j` is
`best_depart[mask, j]`, `none` standing for `INF_TIME`. -/
def dp (inp : SolverInput) (mask j : ℕ) : Option ℚ := dpF inp (mask+1) mask j

/-- Fuel-indexed population count (`popcount` in solver.cpp). -/
def popcountF : ℕ → ℕ → ℕ
  | 0, _ => 0
  | f+1, x => if x = 0 then 0 else x % 2 + popcountF f (x / 2)

/-- `popcount` from solver.cpp. -/
def popcount (x : ℕ) : ℕ := popcountF x x

/-- Evaluation of the actual finish time of a DP state in the objective scan
of `solve`: travel to Finish, wait for the first open Finish slot at or after
the arrival's slot, and reject if outside `[0, end_time]`. -/
def finishEval (inp : SolverInput) (d : ℚ) (i : ℕ) : Option ℚ :=
  if d + inp.travel_time i FINISH_IDX > (inp.end_time : ℚ) then none
  else
    match arrival_to_slot_index inp (d + inp.travel_time i FINISH_IDX) with
    | none => none
    | some fslot =>
      match (List.range' fslot (inp.n_slots - fslot)).find?
          (fun s => inp.finish_open s) with
      | none => none
      | some s =>
        if max (d + inp.travel_time i FINISH_IDX) (inp.slot_starts s : ℚ) < 0 ∨
            max (d + inp.travel_time i FINISH_IDX) (inp.slot_starts s : ℚ) >
              (inp.end_time : ℚ) then none
        else some (max (d + inp.travel_time i FINISH_IDX) (inp.slot_starts s : ℚ))

/-- One step of the objective scan of `solve`: fold state `(mask, i)` into
the current best `(count, finish, mask, last)`. -/
def selStep (inp : SolverInput) (b : Option (ℕ × ℚ × ℕ × ℕ)) (p : ℕ × ℕ) :
    Option (ℕ × ℚ × ℕ × ℕ) :=
  match dp inp p.1 p.2 with
  | none => b
  | some d =>
    match finishEval inp d p.2 with
    | none => b
    | some af =>
      match b with
      | none => some (popcount p.1, af, p.1, p.2)
      | some (bc, bf, bm, bi) =>
        if popcount p.1 > bc ∨ (popcount p.1 = bc ∧ af < bf) then
          some (popcount p.1, af, p.1, p.2)
        else some (bc, bf, bm, bi)

/-- The scan order of the objective selector: masks `1 .. 2^N - 1` ascending,
last position `0 .. N - 1` ascending inside each mask. -/
def statePairs (inp : SolverInput) : List (ℕ × ℕ) :=
  (List.range' 1 (2^inp.n_checkpoints - 1)).flatMap
    (fun m => (List.range inp.n_checkpoints).map (fun i => (m, i)))

/-- The winning state of the objective scan of `solve`:
`(best_count, best_finish_time, best_mask, best_last)`, or `none` when no
feasible state exists (`best_count` stays `-1`). -/
def bestState (inp : SolverInput) : Option (ℕ × ℚ × ℕ × ℕ) :=
  (statePairs inp).foldl (selStep inp) none

/-- Parent links (`parent` array of `solve`): `unvisited` is the sentinel
`-2`, `fromStart` is `-1`, and `prev` unpacks `(prev_mask << 5) | prev_pos`.
For a populated non-singleton state the recorded parent is the first
predecessor position (ascending scan order) whose transition attains the
state's final DP value, because overwrites use strict `<`. -/
inductive ParentLink where
  | unvisited : ParentLink
  | fromStart : ParentLink
  | prev (mask pos : ℕ) : ParentLink
deriving DecidableEq

/-- The parent link stored for state `(mask, pos)` by the DP fill. -/
def parentOf (inp : SolverInput) (mask pos : ℕ) : ParentLink :=
  match dp inp mask pos with
  | none => .unvisited
  | some v =>
    if mask = 2^pos then .fromStart
    else
      match (List.range inp.n_checkpoints).find? (fun i =>
        (mask ^^^ 2^pos).testBit i &&
        (match dp inp (mask ^^^ 2^pos) i with
         | none => false
         | some d => transVal inp d i pos == some v)) with
      | none => .unvisited
      | some i => .prev (mask ^^^ 2^pos) i

/-- Fuel-indexed parent-chain reconstruction (`solve`, "Reconstruct route"):
emits the last position, then follows parent links; a `fromStart` link ends
the walk and a broken chain (`unvisited`) halts early. -/
def reconF (inp : SolverInput) : ℕ → ℕ → ℕ → List ℕ
  | 0, _, pos => [pos]
  | f+1, mask, pos =>
    pos ::
      (match parentOf inp mask pos with
       | .fromStart => []
       | .unvisited => []
       | .prev m' p' => reconF inp f m' p')

/-- Parent-chain reconstruction from state `(mask, pos)`, in last-to-first
order (the contents of `route_buf` in `solve`). -/
def recon (inp : SolverInput) (mask pos : ℕ) : List ℕ := reconF inp mask mask pos

/-- `solve` from solver.cpp: the returned result record.  On success the
route is the reversed parent chain of the winning state. -/
def solve (inp : SolverInput) : SolverResult :=
  match bestState inp with
  | none => ⟨0, [], 0⟩
  | some (c, af, m, i) => ⟨c, (recon inp m i).reverse, af⟩

/-- The flat `jintArray` built by the JNI bridge
(`Java_com_scout_routeplanner_solver_NativeSolver_solveNative`):
`[count, route_length, (int)(finish_time * 100)]` followed by the route. -/
def solveOutput (inp : SolverInput) : List ℤ :=
  [((solve inp).count : ℤ), ((solve inp).route.length : ℤ),
    cIntOfRat ((solve inp).finish_time * 100)]
  ++ (solve inp).route.map (fun c => (c : ℤ))

/-- The visited-set mask of a route, bit `c` standing for checkpoint `c`. -/
def maskOf (r : List ℕ) : ℕ := r.foldr (fun c m => 2^c ||| m) 0

/-! ### Routes and their temporal feasibility (spec §8, property 2)

A route is walked checkpoint by checkpoint with the embedded oracles:
`openDepart` is `earliest_open` followed by dwell and the `end_time` check,
and `stepVisit` additionally applies the forward-pruning guard
`can_reach_finish`, exactly as each DP extension of `solve` does. -/

/-- Walk a route from node `cur` at time `t` (no pruning guard); returns the
last node and the departure time after serving the whole list. -/
def routeWalk (inp : SolverInput) : ℕ → ℚ → List ℕ → Option (ℕ × ℚ)
  | cur, t, [] => some (cur, t)
  | cur, t, j :: rest =>
    match openDepart inp j (t + inp.travel_time cur j) with
    | none => none
    | some dep => routeWalk inp j dep rest

/-- Walk a route with the forward-pruning guard applied after every visit,
mirroring the DP fill of `solve`. -/
def routeWalkP (inp : SolverInput) : ℕ → ℚ → List ℕ → Option (ℕ × ℚ)
  | cur, t, [] => some (cur, t)
  | cur, t, j :: rest =>
    match stepVisit inp j (t + inp.travel_time cur j) with
    | none => none
    | some dep => routeWalkP inp j dep rest

/-- The finish time of a route: walk it from Start at `start_time`, then
evaluate the first open Finish slot exactly as the objective scan does. -/
def routeFinish (inp : SolverInput) (r : List ℕ) : Option ℚ :=
  match routeWalk inp START_IDX (inp.start_time : ℚ) r with
  | none => none
  | some (c, t) => finishEval inp t c

/-- The finish time of a route walked with the pruning guard. -/
def routeFinishP (inp : SolverInput) (r : List ℕ) : Option ℚ :=
  match routeWalkP inp START_IDX (inp.start_time : ℚ) r with
  | none => none
  | some (c, t) => finishEval inp t c

/-- A feasible route (spec §8 "temporal feasibility"): nonempty, duplicate
free, within range, and finishing at `f` inside an open Finish slot no later
than `end_time`. -/
def FeasibleRoute (inp : SolverInput) (r : List ℕ) (f : ℚ) : Prop :=
  r ≠ [] ∧ r.Nodup ∧ (∀ c ∈ r, c < inp.n_checkpoints) ∧ routeFinish inp r = some f

/-- A feasible route that moreover keeps Finish directly reachable
(`can_reach_finish`) at the departure time of every prefix — the routes the
forward pruning of `solve` preserves. -/
def PrunedFeasibleRoute (inp : SolverInput) (r : List ℕ) (f : ℚ) : Prop :=
  r ≠ [] ∧ r.Nodup ∧ (∀ c ∈ r, c < inp.n_checkpoints) ∧ routeFinishP inp r = some f

/-- The winner's invariant during the objective scan: any best-so-far is a
genuine candidate and carries its mask's popcount. -/
def selInv (inp : SolverInput) : Option (ℕ × ℚ × ℕ × ℕ) → Prop
  | none => True
  | some (c, af, m, i) =>
      c = popcount m ∧ ∃ d, dp inp m i = some d ∧ finishEval inp d i = some af

/-- `b` beats the candidate `(c, af)` in the objective order of `solve`:
more checkpoints, or equally many and a finish no later. -/
def Dominates (b : ℕ × ℚ × ℕ × ℕ) (c : ℕ) (af : ℚ) : Prop :=
  c ≤ b.1 ∧ (c = b.1 → b.2.1 ≤ af)

/-! ### Valid inputs and input relaxation (spec §4.1, §6, §8 property 6) -/

/-- The valid-input conditions of spec §4.1/§6: sizes within the compile-time
maxima, a slot table listing every half hour starting on the hour at a
nonnegative minute, nonnegative travel times and dwell. -/
structure ValidInput (inp : SolverInput) : Prop where
  n_pos : 1 ≤ inp.n_checkpoints
  n_le : inp.n_checkpoints ≤ 17
  m_pos : 1 ≤ inp.n_slots
  m_le : inp.n_slots ≤ 15
  base_nonneg : 0 ≤ inp.slot_starts 0
  base_hour : inp.slot_starts 0 % 60 = 0
  consecutive : ∀ s, s < inp.n_slots →
    inp.slot_starts s = inp.slot_starts 0 + 30 * s
  travel_nonneg : ∀ i j, i < 19 → j < 19 → 0 ≤ inp.travel_time i j
  dwell_nonneg : 0 ≤ inp.dwell

/-- `B` relaxes `A`: same sizes, schedule grid and event window, at least the
same open slots, and pointwise lower-or-equal travel times. -/
structure Relaxation (A B : SolverInput) : Prop where
  n_eq : B.n_checkpoints = A.n_checkpoints
  m_eq : B.n_slots = A.n_slots
  starts_eq : ∀ s, B.slot_starts s = A.slot_starts s
  dwell_eq : B.dwell = A.dwell
  start_eq : B.start_time = A.start_time
  end_eq : B.end_time = A.end_time
  open_le : ∀ c s, A.open_at c s = true → B.open_at c s = true
  fin_le : ∀ s, A.finish_open s = true → B.finish_open s = true
  travel_le : ∀ i j, B.travel_time i j ≤ A.travel_time i j

/-! ### The canonical half-hour grid of `arrival_to_slot_index` -/

/-- The canonical slot-start minute of a whole minute `w`:
`60·(w ÷ 60) + (30 if w mod 60 > 30 else 0)` — spec §4.1's rule over the
mathematical (Euclidean) quotient and remainder. -/
def canonicalZ (w : ℤ) : ℤ := 60 * (w / 60) + (if 30 < w % 60 then 30 else 0)

/-- Spec §4.1's canonical time of a real arrival `t`: apply the half-hour
rule to `⌊t⌋`. -/
def canonicalSpec (t : ℚ) : ℤ := canonicalZ ⌊t⌋

/-! ### Concrete inputs: the spec's seed scenarios and counterexample inputs -/

/-- Spec scenario S2 (direct finish): one checkpoint, one slot starting at
600, everything open, `T[Start,0] = T[0,Finish] = 5`, dwell 7. -/
def inS2 : SolverInput where
  n_checkpoints := 1
  n_slots := 1
  travel_time := fun i j =>
    if i = 17 ∧ j = 0 then 5 else if i = 0 ∧ j = 18 then 5 else 0
  open_at := fun _ _ => true
  finish_open := fun _ => true
  slot_starts := fun s => 600 + 30 * s
  speed := 1
  dwell := 7
  naismith := 10
  start_time := 600
  end_time := 700

/-- Spec scenario S1 (trivial skip): checkpoint 0 closed in every slot. -/
def inS1 : SolverInput := { inS2 with open_at := fun _ _ => false }

/-- `inS2` with a faster leg to checkpoint 0 — a relaxation of `inS2`. -/
def inS2fast : SolverInput := { inS2 with
  travel_time := fun i j =>
    if i = 17 ∧ j = 0 then 4 else if i = 0 ∧ j = 18 then 5 else 0 }

/-- Spec scenario S3 (forced wait): two slots 600 and 630, slot 600 closed
for checkpoint 0, `T[Start,0] = 10`. -/
def inS3 : SolverInput := { inS2 with
  n_slots := 2
  travel_time := fun i j => if i = 17 ∧ j = 0 then 10 else 0
  open_at := fun _ s => decide (s = 1) }

/-- A valid input on which the forward pruning loses the optimal route:
`T[0,Finish]` is huge, so the one-checkpoint state `({0},0)` is pruned,
yet `0 → 1 → Finish` is feasible (travel times satisfy no triangle
inequality). -/
def inC1 : SolverInput where
  n_checkpoints := 2
  n_slots := 1
  travel_time := fun i j =>
    if i = 17 ∧ j = 0 then 0 else
    if i = 17 ∧ j = 1 then 1000 else
    if i = 0 ∧ j = 1 then 0 else
    if i = 0 ∧ j = 18 then 1000 else
    if i = 1 ∧ j = 18 then 0 else
    if i = 1 ∧ j = 0 then 1000 else 0
  open_at := fun _ _ => true
  finish_open := fun _ => true
  slot_starts := fun s => 600 + 30 * s
  speed := 1
  dwell := 0
  naismith := 10
  start_time := 600
  end_time := 700

/-- A valid input on which the solver returns a two-checkpoint route
finishing at 620 while the pruned two-checkpoint route `[0, 1]` would
finish at 600. -/
def inC2 : SolverInput where
  n_checkpoints := 3
  n_slots := 1
  travel_time := fun i j =>
    if i = 17 ∧ j = 0 then 0 else
    if i = 17 ∧ j = 1 then 50 else
    if i = 17 ∧ j = 2 then 10 else
    if i = 0 ∧ j = 1 then 0 else
    if i = 0 ∧ j = 18 then 1000 else
    if i = 1 ∧ j = 18 then 0 else
    if i = 2 ∧ j = 1 then 10 else
    if i = 2 ∧ j = 18 then 10 else
    if i = 1 ∧ j = 2 then 100 else
    if i = 1 ∧ j = 0 then 100 else
    if i = 2 ∧ j = 0 then 100 else
    if i = 0 ∧ j = 2 then 100 else 0
  open_at := fun _ _ => true
  finish_open := fun _ => true
  slot_starts := fun s => 600 + 30 * s
  speed := 1
  dwell := 0
  naismith := 10
  start_time := 600
  end_time := 700

/-- `inS2` with a fractional approach leg `T[Start,0] = 5.009`: the finish
time 617.009 has fractional centi-minutes at the output boundary. -/
def inC6 : SolverInput := { inS2 with
  travel_time := fun i j =>
    if i = 17 ∧ j = 0 then 5009/1000 else if i = 0 ∧ j = 18 then 5 else 0 }

/-! ### Basic lemmas about the fold/scan primitives -/

theorem minOpt_none_left (b : Option ℚ) : minOpt none b = b := by cases b <;> rfl

theorem minOpt_none_right (a : Option ℚ) : minOpt a none = a := by cases a <;> rfl

theorem minOpt_some_some (x y : ℚ) : minOpt (some x) (some y) = some (min x y) := rfl

theorem minOpt_some_ne_none (x : ℚ) (b : Option ℚ) : minOpt (some x) b ≠ none := by
  cases b <;> simp [minOpt]

theorem foldr_minOpt_eq_none_iff (l : List (Option ℚ)) :
    l.foldr minOpt none = none ↔ ∀ x ∈ l, x = none := by
  induction l with
  | nil => simp
  | cons a t ih =>
    cases a with
    | none =>
      simp only [List.foldr_cons, minOpt_none_left, List.forall_mem_cons]
      rw [ih]; simp
    | some x =>
      simp only [List.foldr_cons, List.forall_mem_cons]
      constructor
      · intro h; exact absurd h (minOpt_some_ne_none x _)
      · rintro ⟨hx, -⟩; simp at hx

theorem foldr_minOpt_mem (l : List (Option ℚ)) (v : ℚ)
    (h : l.foldr minOpt none = some v) : some v ∈ l := by
  induction l with
  | nil => simp at h
  | cons a t ih =>
    rw [List.foldr_cons] at h
    cases a with
    | none =>
      rw [minOpt_none_left] at h
      exact List.mem_cons_of_mem _ (ih h)
    | some x =>
      cases hft : t.foldr minOpt none with
      | none =>
        rw [hft, minOpt_none_right] at h
        rw [← h]
        exact List.mem_cons_self _ _
      | some y =>
        rw [hft, minOpt_some_some] at h
        injection h with h'
        rcases le_total x y with hxy | hxy
        · rw [min_eq_left hxy] at h'
          rw [← h']
          exact List.mem_cons_self _ _
        · rw [min_eq_right hxy] at h'
          subst h'
          exact List.mem_cons_of_mem _ (ih hft)

theorem foldr_minOpt_le (l : List (Option ℚ)) (e : ℚ) (hmem : some e ∈ l) :
    ∃ v, l.foldr minOpt none = some v ∧ v ≤ e := by
  induction l with
  | nil => simp at hmem
  | cons a t ih =>
    rcases List.mem_cons.mp hmem with h | ht
    · subst h
      cases hft : t.foldr minOpt none with
      | none => exact ⟨e, by rw [List.foldr_cons, hft, minOpt_none_right], le_refl e⟩
      | some y =>
        exact ⟨min e y, by rw [List.foldr_cons, hft, minOpt_some_some], min_le_left _ _⟩
    · obtain ⟨v, hv, hve⟩ := ih ht
      cases a with
      | none => exact ⟨v, by rw [List.foldr_cons, minOpt_none_left, hv], hve⟩
      | some x =>
        exact ⟨min x v, by rw [List.foldr_cons, hv, minOpt_some_some],
          le_trans (min_le_right _ _) hve⟩

theorem find?_range'_some {p : ℕ → Bool} :
    ∀ (n k s : ℕ), (List.range' k n).find? p = some s →
      k ≤ s ∧ s < k + n ∧ p s = true ∧ ∀ t, k ≤ t → t < s → p t = false := by
  intro n
  induction n with
  | zero => intro k s h; simp [List.range'] at h
  | succ n ih =>
    intro k s h
    rw [List.range'_succ] at h
    by_cases hk : p k
    · rw [List.find?_cons_of_pos _ hk] at h
      obtain rfl : k = s := by simpa using h
      exact ⟨le_refl _, by omega, hk, fun t h1 h2 => absurd h1 (by omega)⟩
    · rw [List.find?_cons_of_neg _ hk] at h
      obtain ⟨h1, h2, h3, h4⟩ := ih (k+1) s h
      refine ⟨by omega, by omega, h3, fun t ht1 ht2 => ?_⟩
      rcases Nat.eq_or_lt_of_le ht1 with rfl | ht1'
      · exact Bool.not_eq_true _ ▸ (by simpa using hk)
      · exact h4 t ht1' ht2

theorem find?_range'_none {p : ℕ → Bool} :
    ∀ (n k : ℕ), (List.range' k n).find? p = none ↔
      ∀ s, k ≤ s → s < k + n → p s = false := by
  intro n
  induction n with
  | zero => intro k; constructor
            · intro _ s h1 h2; omega
            · intro _; simp [List.range']
  | succ n ih =>
    intro k
    rw [List.range'_succ]
    by_cases hk : p k
    · rw [List.find?_cons_of_pos _ hk]
      constructor
      · intro h; simp at h
      · intro h; exact absurd (h k (le_refl _) (by omega)) (by simp [hk])
    · rw [List.find?_cons_of_neg _ hk]
      rw [ih (k+1)]
      constructor
      · intro h s h1 h2
        rcases Nat.eq_or_lt_of_le h1 with rfl | h1'
        · exact Bool.not_eq_true _ ▸ (by simpa using hk)
        · exact h s h1' (by omega)
      · intro h s h1 h2; exact h s (by omega) (by omega)

theorem find?_range'_le {p : ℕ → Bool} (n k s : ℕ) (h1 : k ≤ s) (h2 : s < k + n)
    (h3 : p s = true) :
    ∃ s', (List.range' k n).find? p = some s' ∧ s' ≤ s := by
  cases hf : (List.range' k n).find? p with
  | none => exact absurd ((find?_range'_none n k).mp hf s h1 h2) (by simp [h3])
  | some s' =>
    refine ⟨s', rfl, ?_⟩
    by_contra hlt
    exact absurd h3
      (by simp [(find?_range'_some n k s' hf).2.2.2 s h1 (by omega)])

/-! ### Population count -/

theorem popcountF_fuel : ∀ (x f f' : ℕ), x ≤ f → x ≤ f' →
    popcountF f x = popcountF f' x := by
  intro x
  induction x using Nat.strong_induction_on with
  | _ x ih =>
    intro f f' hf hf'
    match x, f, f', hf, hf' with
    | 0, 0, 0, _, _ => rfl
    | 0, 0, g'+1, _, _ => simp [popcountF]
    | 0, g+1, 0, _, _ => simp [popcountF]
    | 0, g+1, g'+1, _, _ => simp [popcountF]
    | x+1, g+1, g'+1, hf, hf' =>
      show popcountF (g+1) (x+1) = popcountF (g'+1) (x+1)
      simp only [popcountF]
      rw [ih ((x+1)/2) (by omega) g g' (by omega) (by omega)]

theorem popcount_rec (x : ℕ) (hx : x ≠ 0) :
    popcount x = x % 2 + popcount (x / 2) := by
  rcases x with _ | y
  · exact absurd rfl hx
  · show popcountF (y+1) (y+1) = (y+1) % 2 + popcount ((y+1)/2)
    simp only [popcountF]
    rw [if_neg (by omega), popcountF_fuel ((y+1)/2) y ((y+1)/2) (by omega) (le_refl _)]
    rfl

theorem popcount_zero : popcount 0 = 0 := rfl

theorem popcount_pos (x : ℕ) (hx : 1 ≤ x) : 1 ≤ popcount x := by
  induction x using Nat.strong_induction_on with
  | _ x ih =>
    rw [popcount_rec x (by omega)]
    rcases Nat.mod_two_eq_zero_or_one x with h2 | h2
    · have hx2 : 1 ≤ x / 2 := by omega
      have := ih (x/2) (by omega) hx2
      omega
    · omega

theorem or_two_pow_ne_zero (m j : ℕ) : m ||| 2^j ≠ 0 := by
  intro h
  have h2 := congrArg (fun x => Nat.testBit x j) h
  simp [Nat.testBit_or] at h2

theorem popcount_or_two_pow : ∀ (j m : ℕ), m.testBit j = false →
    popcount (m ||| 2^j) = popcount m + 1 := by
  intro j
  induction j with
  | zero =>
    intro m hm
    rw [Nat.testBit_zero] at hm
    have hm2 : m % 2 = 0 := by
      rcases Nat.mod_two_eq_zero_or_one m with h | h
      · exact h
      · simp [h] at hm
    rw [popcount_rec (m ||| 2^0) (or_two_pow_ne_zero m 0)]
    have hdiv : (m ||| 2^0) / 2 = m / 2 := by
      rw [Nat.or_div_two]
      norm_num
    have hmod : (m ||| 2^0) % 2 = 1 := by
      rw [Nat.or_mod_two_eq_one]; right; rfl
    rw [hdiv, hmod]
    by_cases hm0 : m = 0
    · simp [hm0, popcount_zero]
    · rw [popcount_rec m hm0, hm2]
      omega
  | succ j ih =>
    intro m hm
    rw [Nat.testBit_succ] at hm
    have key : (m ||| 2^(j+1)) / 2 = m / 2 ||| 2^j := by
      rw [Nat.or_div_two, pow_succ, Nat.mul_div_cancel _ (by norm_num)]
    have hmod : (m ||| 2^(j+1)) % 2 = m % 2 := by
      have h2 : (2:ℕ)^(j+1) % 2 = 0 := by
        rw [pow_succ, Nat.mul_mod_left]
      rcases Nat.mod_two_eq_zero_or_one m with h | h
      · rw [h]
        rcases Nat.mod_two_eq_zero_or_one (m ||| 2^(j+1)) with h' | h'
        · exact h'
        · rw [Nat.or_mod_two_eq_one] at h'
          rcases h' with h' | h' <;> omega
      · rw [h, Nat.or_mod_two_eq_one.mpr (Or.inl h)]
    rw [popcount_rec (m ||| 2^(j+1)) (or_two_pow_ne_zero m (j+1)), key, hmod,
      ih (m/2) hm]
    by_cases hm0 : m = 0
    · simp [hm0, popcount_zero]
    · rw [popcount_rec m hm0]
      omega

/-! ### Bitmask bookkeeping -/

theorem maskOf_nil : maskOf [] = 0 := rfl

theorem maskOf_cons (c : ℕ) (r : List ℕ) : maskOf (c :: r) = 2^c ||| maskOf r := rfl

theorem bool_eq_of_true_iff {a b : Bool} (h : a = true ↔ b = true) : a = b := by
  cases a <;> cases b <;> simp_all

theorem testBit_maskOf (r : List ℕ) (k : ℕ) :
    (maskOf r).testBit k = true ↔ k ∈ r := by
  induction r with
  | nil => simp [maskOf_nil]
  | cons c t ih =>
    rw [maskOf_cons, Nat.testBit_or]
    simp only [Bool.or_eq_true, Nat.testBit_two_pow, decide_eq_true_eq, List.mem_cons, ih]
    constructor
    · rintro (rfl | h)
      · exact Or.inl rfl
      · exact Or.inr h
    · rintro (rfl | h)
      · exact Or.inl rfl
      · exact Or.inr h

theorem maskOf_append_singleton (l : List ℕ) (j : ℕ) :
    maskOf (l ++ [j]) = maskOf l ||| 2^j := by
  apply Nat.eq_of_testBit_eq
  intro k
  apply bool_eq_of_true_iff
  rw [testBit_maskOf, Nat.testBit_or]
  simp only [Bool.or_eq_true, testBit_maskOf, Nat.testBit_two_pow, decide_eq_true_eq,
    List.mem_append, List.mem_singleton]
  constructor
  · rintro (h | rfl)
    · exact Or.inl h
    · exact Or.inr rfl
  · rintro (h | rfl)
    · exact Or.inl h
    · exact Or.inr rfl

theorem or_two_pow_xor_cancel (m j : ℕ) (h : m.testBit j = false) :
    (m ||| 2^j) ^^^ 2^j = m := by
  apply Nat.eq_of_testBit_eq
  intro k
  rw [Nat.testBit_xor, Nat.testBit_or, Nat.testBit_two_pow]
  by_cases hk : j = k
  · subst hk; simp [h]
  · simp [hk]

theorem exists_testBit_one (m : ℕ) (hm : m ≠ 0) : ∃ k, m.testBit k = true := by
  by_contra h
  push_neg at h
  refine hm (Nat.eq_of_testBit_eq fun k => ?_)
  rw [Nat.zero_testBit]
  cases hb : m.testBit k with
  | false => rfl
  | true => exact absurd hb (h k)

theorem or_two_pow_ne_two_pow (m j : ℕ) (hm : m ≠ 0) (h : m.testBit j = false) :
    m ||| 2^j ≠ 2^j := by
  obtain ⟨k, hk⟩ := exists_testBit_one m hm
  intro heq
  have hkj : k ≠ j := fun hkj => by rw [hkj] at hk; rw [hk] at h; exact absurd h (by simp)
  have h1 : (m ||| 2^j).testBit k = true := by
    rw [Nat.testBit_or, hk]; simp
  rw [heq, Nat.testBit_two_pow] at h1
  simp only [decide_eq_true_eq] at h1
  exact hkj h1.symm

theorem testBit_lt_of_lt_two_pow (m n k : ℕ) (hm : m < 2^n) (hk : m.testBit k = true) :
    k < n := by
  have h1 : 2^k ≤ m := Nat.testBit_implies_ge hk
  have h2 : (2:ℕ)^k < 2^n := lt_of_le_of_lt h1 hm
  exact (Nat.pow_lt_pow_iff_right (by norm_num)).mp h2

theorem or_two_pow_disjoint_add : ∀ (j a : ℕ), a.testBit j = false →
    a ||| 2^j = a + 2^j := by
  intro j
  induction j with
  | zero =>
    intro a ha
    rw [Nat.testBit_zero] at ha
    have ha2 : a % 2 = 0 := by
      rcases Nat.mod_two_eq_zero_or_one a with h | h
      · exact h
      · simp [h] at ha
    have hdiv : (a ||| 2^0) / 2 = a / 2 := by
      rw [Nat.or_div_two]; norm_num
    have hmod : (a ||| 2^0) % 2 = 1 := by
      rw [Nat.or_mod_two_eq_one]; right; rfl
    have h1 := Nat.div_add_mod (a ||| 2^0) 2
    have h2 := Nat.div_add_mod a 2
    omega
  | succ j ih =>
    intro a ha
    rw [Nat.testBit_succ] at ha
    have hdiv : (a ||| 2^(j+1)) / 2 = a / 2 ||| 2^j := by
      rw [Nat.or_div_two, pow_succ, Nat.mul_div_cancel _ (by norm_num)]
    have hmod : (a ||| 2^(j+1)) % 2 = a % 2 := by
      have h2 : (2:ℕ)^(j+1) % 2 = 0 := by rw [pow_succ, Nat.mul_mod_left]
      rcases Nat.mod_two_eq_zero_or_one a with h | h
      · rw [h]
        rcases Nat.mod_two_eq_zero_or_one (a ||| 2^(j+1)) with h' | h'
        · exact h'
        · rw [Nat.or_mod_two_eq_one] at h'
          rcases h' with h' | h' <;> omega
      · rw [h, Nat.or_mod_two_eq_one.mpr (Or.inl h)]
    have hih := ih (a/2) ha
    have h1 := Nat.div_add_mod (a ||| 2^(j+1)) 2
    have h2 := Nat.div_add_mod a 2
    have hp : (2:ℕ)^(j+1) = 2 * 2^j := by rw [pow_succ]; ring
    omega

theorem xor_two_pow_eq_or (a j : ℕ) (h : a.testBit j = false) :
    a ^^^ 2^j = a ||| 2^j := by
  apply Nat.eq_of_testBit_eq
  intro k
  rw [Nat.testBit_xor, Nat.testBit_or, Nat.testBit_two_pow]
  by_cases hk : j = k
  · subst hk; simp [h]
  · simp [hk]

theorem xor_two_pow_add (m j : ℕ) (h : m.testBit j = true) :
    (m ^^^ 2^j) + 2^j = m := by
  have hb : (m ^^^ 2^j).testBit j = false := by
    rw [Nat.testBit_xor, h, Nat.testBit_two_pow]
    simp
  have h1 : (m ^^^ 2^j) ^^^ 2^j = m := by
    rw [Nat.xor_assoc, Nat.xor_self, Nat.xor_zero]
  rw [← or_two_pow_disjoint_add j _ hb, ← xor_two_pow_eq_or _ _ hb, h1]

theorem xor_two_pow_lt (m j : ℕ) (h : m.testBit j = true) : m ^^^ 2^j < m := by
  have h1 := xor_two_pow_add m j h
  have h2 : 1 ≤ 2^j := Nat.one_le_two_pow
  omega

theorem testBit_xor_two_pow_of_ne (m j k : ℕ) (hk : k ≠ j) :
    (m ^^^ 2^j).testBit k = m.testBit k := by
  rw [Nat.testBit_xor, Nat.testBit_two_pow]
  have hjk : j ≠ k := fun hjk => hk hjk.symm
  simp [hjk]

/-! ### The DP recurrence -/

theorem dpF_fuel (inp : SolverInput) : ∀ (mask f f' j : ℕ), mask < f → mask < f' →
    dpF inp f mask j = dpF inp f' mask j := by
  intro mask
  induction mask using Nat.strong_induction_on with
  | _ mask ih =>
    intro f f' j hf hf'
    rcases Nat.exists_eq_succ_of_ne_zero (show f ≠ 0 by omega) with ⟨g, rfl⟩
    rcases Nat.exists_eq_succ_of_ne_zero (show f' ≠ 0 by omega) with ⟨g', rfl⟩
    simp only [dpF]
    by_cases hguard : j < inp.n_checkpoints ∧ mask.testBit j
    · rw [if_pos hguard, if_pos hguard]
      by_cases hsing : mask = 2^j
      · rw [if_pos hsing, if_pos hsing]
      · rw [if_neg hsing, if_neg hsing]
        apply congrArg (List.foldr minOpt none)
        apply List.map_congr_left
        intro i _
        by_cases hb : (mask ^^^ 2^j).testBit i
        · have hlt := xor_two_pow_lt mask j hguard.2
          rw [if_pos hb, if_pos hb, ih (mask ^^^ 2^j) hlt g g' i (by omega) (by omega)]
        · rw [if_neg hb, if_neg hb]
    · rw [if_neg hguard, if_neg hguard]

theorem dp_not_guard (inp : SolverInput) (mask j : ℕ)
    (h : ¬(j < inp.n_checkpoints ∧ mask.testBit j = true)) : dp inp mask j = none := by
  show dpF inp (mask+1) mask j = none
  simp only [dpF]
  rw [if_neg h]

theorem dp_singleton (inp : SolverInput) (j : ℕ) (hj : j < inp.n_checkpoints) :
    dp inp (2^j) j = initVal inp j := by
  show dpF inp (2^j+1) (2^j) j = initVal inp j
  simp [dpF, hj, Nat.testBit_two_pow_self]

theorem dp_rec_ne (inp : SolverInput) (mask j : ℕ) (hj : j < inp.n_checkpoints)
    (hbit : mask.testBit j = true) (hne : mask ≠ 2^j) :
    dp inp mask j = ((List.range inp.n_checkpoints).map (fun i =>
      if (mask ^^^ 2^j).testBit i then
        match dp inp (mask ^^^ 2^j) i with
        | none => none
        | some d => transVal inp d i j
      else none)).foldr minOpt none := by
  show dpF inp (mask+1) mask j = _
  simp only [dpF]
  rw [if_pos ⟨hj, hbit⟩, if_neg hne]
  apply congrArg (List.foldr minOpt none)
  apply List.map_congr_left
  intro i _
  by_cases hb : (mask ^^^ 2^j).testBit i
  · have hlt := xor_two_pow_lt mask j hbit
    rw [if_pos hb, if_pos hb,
      dpF_fuel inp (mask ^^^ 2^j) mask ((mask ^^^ 2^j)+1) i hlt (by omega)]
    rfl
  · rw [if_neg hb, if_neg hb]

theorem xor_two_pow_or (mask j : ℕ) (h : mask.testBit j = true) :
    (mask ^^^ 2^j) ||| 2^j = mask := by
  apply Nat.eq_of_testBit_eq
  intro k
  rw [Nat.testBit_or, Nat.testBit_two_pow]
  by_cases hk : j = k
  · subst hk; simp [h]
  · rw [testBit_xor_two_pow_of_ne mask j k (fun hkj => hk hkj.symm)]
    simp [hk]

/-! ### Extraction lemmas for the guarded steps -/

theorem openDepart_some (inp : SolverInput) (j : ℕ) (arr dep : ℚ)
    (h : openDepart inp j arr = some dep) :
    ∃ ot, find_next_open_time inp j arr = some ot ∧ dep = ot + (inp.dwell : ℚ) ∧
      dep ≤ (inp.end_time : ℚ) := by
  unfold openDepart at h
  cases hf : find_next_open_time inp j arr with
  | none => rw [hf] at h; simp at h
  | some ot =>
    rw [hf] at h
    simp only at h
    by_cases hle : ot + (inp.dwell : ℚ) > (inp.end_time : ℚ)
    · rw [if_pos hle] at h; simp at h
    · rw [if_neg hle] at h
      simp only [Option.some_inj] at h
      exact ⟨ot, rfl, h.symm, h ▸ le_of_not_gt hle⟩

theorem stepVisit_some (inp : SolverInput) (j : ℕ) (arr dep : ℚ)
    (h : stepVisit inp j arr = some dep) :
    openDepart inp j arr = some dep ∧ can_reach_finish inp dep j = true := by
  unfold stepVisit at h
  cases ho : openDepart inp j arr with
  | none => rw [ho] at h; simp at h
  | some d =>
    rw [ho] at h
    simp only at h
    by_cases hc : can_reach_finish inp d j
    · rw [if_pos hc] at h
      simp only [Option.some_inj] at h
      rw [← h]
      exact ⟨rfl, hc⟩
    · rw [if_neg hc] at h; simp at h

theorem stepVisit_some_of (inp : SolverInput) (j : ℕ) (arr dep : ℚ)
    (h1 : openDepart inp j arr = some dep)
    (h2 : can_reach_finish inp dep j = true) :
    stepVisit inp j arr = some dep := by
  unfold stepVisit
  rw [h1]
  simp [h2]

theorem transVal_some (inp : SolverInput) (d : ℚ) (i j : ℕ) (e : ℚ)
    (h : transVal inp d i j = some e) :
    d + inp.travel_time i j ≤ (inp.end_time : ℚ) ∧
      stepVisit inp j (d + inp.travel_time i j) = some e := by
  unfold transVal at h
  by_cases hle : d + inp.travel_time i j > (inp.end_time : ℚ)
  · rw [if_pos hle] at h; simp at h
  · rw [if_neg hle] at h
    exact ⟨le_of_not_gt hle, h⟩

theorem dp_some_cases (inp : SolverInput) (mask j : ℕ) (v : ℚ)
    (h : dp inp mask j = some v) :
    j < inp.n_checkpoints ∧ mask.testBit j = true ∧
    ((mask = 2^j ∧ initVal inp j = some v) ∨
     (mask ≠ 2^j ∧ ∃ i, i < inp.n_checkpoints ∧ (mask ^^^ 2^j).testBit i = true ∧
       ∃ d, dp inp (mask ^^^ 2^j) i = some d ∧ transVal inp d i j = some v)) := by
  by_cases hguard : j < inp.n_checkpoints ∧ mask.testBit j = true
  · refine ⟨hguard.1, hguard.2, ?_⟩
    by_cases hsing : mask = 2^j
    · left
      refine ⟨hsing, ?_⟩
      rw [← dp_singleton inp j hguard.1, ← hsing]
      exact h
    · right
      refine ⟨hsing, ?_⟩
      rw [dp_rec_ne inp mask j hguard.1 hguard.2 hsing] at h
      have hmem := foldr_minOpt_mem _ _ h
      obtain ⟨i, hi, hival⟩ := List.mem_map.mp hmem
      refine ⟨i, List.mem_range.mp hi, ?_⟩
      by_cases hb : (mask ^^^ 2^j).testBit i
      · rw [if_pos hb] at hival
        refine ⟨hb, ?_⟩
        cases hd : dp inp (mask ^^^ 2^j) i with
        | none => rw [hd] at hival; simp at hival
        | some d => rw [hd] at hival; exact ⟨d, rfl, hival⟩
      · rw [if_neg hb] at hival; simp at hival
  · rw [dp_not_guard inp mask j hguard] at h
    simp at h

theorem dp_le_of_trans (inp : SolverInput) (mask j i : ℕ) (d e : ℚ)
    (hj : j < inp.n_checkpoints) (hi : i < inp.n_checkpoints)
    (hbit : mask.testBit j = true) (hne : mask ≠ 2^j)
    (hbit' : (mask ^^^ 2^j).testBit i = true)
    (hdp : dp inp (mask ^^^ 2^j) i = some d)
    (htr : transVal inp d i j = some e) :
    ∃ v, dp inp mask j = some v ∧ v ≤ e := by
  rw [dp_rec_ne inp mask j hj hbit hne]
  apply foldr_minOpt_le
  apply List.mem_map.mpr
  refine ⟨i, List.mem_range.mpr hi, ?_⟩
  simp [hbit', hdp, htr]

theorem dp_some_step (inp : SolverInput) (mask j : ℕ) (v : ℚ)
    (h : dp inp mask j = some v) :
    ∃ arr, stepVisit inp j arr = some v := by
  obtain ⟨hj, hbit, hcase⟩ := dp_some_cases inp mask j v h
  rcases hcase with ⟨-, hinit⟩ | ⟨-, i, -, -, d, -, htr⟩
  · exact ⟨_, hinit⟩
  · exact ⟨_, (transVal_some inp d i j v htr).2⟩

theorem dp_some_invariant (inp : SolverInput) (mask j : ℕ) (v : ℚ)
    (h : dp inp mask j = some v) :
    can_reach_finish inp v j = true ∧ v ≤ (inp.end_time : ℚ) := by
  obtain ⟨arr, hstep⟩ := dp_some_step inp mask j v h
  obtain ⟨hopen, hcrf⟩ := stepVisit_some inp j arr v hstep
  obtain ⟨ot, -, -, hle⟩ := openDepart_some inp j arr v hopen
  exact ⟨hcrf, hle⟩

theorem dp_bits_lt (inp : SolverInput) :
    ∀ (mask : ℕ) (j : ℕ) (v : ℚ), dp inp mask j = some v →
      ∀ k, mask.testBit k = true → k < inp.n_checkpoints := by
  intro mask
  induction mask using Nat.strong_induction_on with
  | _ mask ih =>
    intro j v h k hk
    obtain ⟨hj, hbit, hcase⟩ := dp_some_cases inp mask j v h
    rcases hcase with ⟨hsing, -⟩ | ⟨hne, i, hi, hbit', d, hdp, -⟩
    · subst hsing
      rw [Nat.testBit_two_pow] at hk
      simp only [decide_eq_true_eq] at hk
      omega
    · by_cases hkj : k = j
      · omega
      · have hk' : (mask ^^^ 2^j).testBit k = true := by
          rw [testBit_xor_two_pow_of_ne mask j k hkj]
          exact hk
        exact ih (mask ^^^ 2^j) (xor_two_pow_lt mask j hbit) i d hdp k hk'

theorem routeWalk_append (inp : SolverInput) (l1 l2 : List ℕ) :
    ∀ (cur : ℕ) (t : ℚ), routeWalk inp cur t (l1 ++ l2) =
      (routeWalk inp cur t l1).bind (fun p => routeWalk inp p.1 p.2 l2) := by
  induction l1 with
  | nil => intro cur t; rfl
  | cons j rest ih =>
    intro cur t
    show (match openDepart inp j (t + inp.travel_time cur j) with
      | none => none
      | some dep => routeWalk inp j dep (rest ++ l2)) = _
    cases ho : openDepart inp j (t + inp.travel_time cur j) with
    | none => simp [routeWalk, ho]
    | some dep => simp [routeWalk, ho, ih]

theorem routeWalkP_append (inp : SolverInput) (l1 l2 : List ℕ) :
    ∀ (cur : ℕ) (t : ℚ), routeWalkP inp cur t (l1 ++ l2) =
      (routeWalkP inp cur t l1).bind (fun p => routeWalkP inp p.1 p.2 l2) := by
  induction l1 with
  | nil => intro cur t; rfl
  | cons j rest ih =>
    intro cur t
    show (match stepVisit inp j (t + inp.travel_time cur j) with
      | none => none
      | some dep => routeWalkP inp j dep (rest ++ l2)) = _
    cases ho : stepVisit inp j (t + inp.travel_time cur j) with
    | none => simp [routeWalkP, ho]
    | some dep => simp [routeWalkP, ho, ih]

theorem routeWalkP_imp_walk (inp : SolverInput) (l : List ℕ) :
    ∀ (cur : ℕ) (t : ℚ) (p : ℕ × ℚ), routeWalkP inp cur t l = some p →
      routeWalk inp cur t l = some p := by
  induction l with
  | nil => intro cur t p h; exact h
  | cons j rest ih =>
    intro cur t p h
    show (match openDepart inp j (t + inp.travel_time cur j) with
      | none => none
      | some dep => routeWalk inp j dep rest) = some p
    have h' : (match stepVisit inp j (t + inp.travel_time cur j) with
      | none => none
      | some dep => routeWalkP inp j dep rest) = some p := h
    cases hs : stepVisit inp j (t + inp.travel_time cur j) with
    | none => rw [hs] at h'; simp at h'
    | some dep =>
      rw [hs] at h'
      rw [(stepVisit_some inp j _ dep hs).1]
      exact ih j dep p h'

theorem pruned_imp_feasible (inp : SolverInput) (r : List ℕ) (f : ℚ)
    (h : PrunedFeasibleRoute inp r f) : FeasibleRoute inp r f := by
  obtain ⟨h1, h2, h3, h4⟩ := h
  refine ⟨h1, h2, h3, ?_⟩
  unfold routeFinishP at h4
  unfold routeFinish
  cases hw : routeWalkP inp START_IDX (inp.start_time : ℚ) r with
  | none => rw [hw] at h4; simp at h4
  | some p =>
    rw [hw] at h4
    rw [routeWalkP_imp_walk inp r START_IDX (inp.start_time : ℚ) p hw]
    exact h4

theorem routeWalkP_last_mem (inp : SolverInput) (l : List ℕ) :
    ∀ (cur : ℕ) (t : ℚ) (c : ℕ) (u : ℚ),
      routeWalkP inp cur t l = some (c, u) → l ≠ [] → c ∈ l := by
  induction l with
  | nil => intro cur t c u h hne; exact absurd rfl hne
  | cons j rest ih =>
    intro cur t c u h hne
    have h' : (match stepVisit inp j (t + inp.travel_time cur j) with
      | none => none
      | some dep => routeWalkP inp j dep rest) = some (c, u) := h
    cases hs : stepVisit inp j (t + inp.travel_time cur j) with
    | none => rw [hs] at h'; simp at h'
    | some dep =>
      rw [hs] at h'
      rcases rest with - | ⟨k, rest'⟩
      · simp only [routeWalkP, Option.some_inj] at h'
        rw [Prod.mk.injEq] at h'
        exact List.mem_singleton.mpr h'.1.symm
      · exact List.mem_cons_of_mem _ (ih j dep c u h' (by simp))

/-! ### DP soundness: every populated state is realized by a pruned route -/

theorem dp_sound (inp : SolverInput) :
    ∀ (mask : ℕ) (j : ℕ) (v : ℚ), dp inp mask j = some v →
      ∃ r, r ≠ [] ∧ r.Nodup ∧ (∀ c ∈ r, c < inp.n_checkpoints) ∧
        maskOf r = mask ∧
        routeWalkP inp START_IDX (inp.start_time : ℚ) r = some (j, v) := by
  intro mask
  induction mask using Nat.strong_induction_on with
  | _ mask ih =>
    intro j v h
    obtain ⟨hj, hbit, hcase⟩ := dp_some_cases inp mask j v h
    rcases hcase with ⟨hsing, hinit⟩ | ⟨hne, i, hi, hbit', d, hdp, htr⟩
    · refine ⟨[j], by simp, List.nodup_singleton j, by simpa using hj, ?_, ?_⟩
      · rw [maskOf_cons, maskOf_nil, Nat.or_zero, hsing]
      · show (match stepVisit inp j ((inp.start_time : ℚ) +
            inp.travel_time START_IDX j) with
          | none => none
          | some dep => routeWalkP inp j dep []) = some (j, v)
        rw [show stepVisit inp j ((inp.start_time : ℚ) +
            inp.travel_time START_IDX j) = some v from hinit]
        rfl
    · obtain ⟨r', hne', hnd', hlt', hmask', hwalk'⟩ :=
        ih (mask ^^^ 2^j) (xor_two_pow_lt mask j hbit) i d hdp
      have hjr' : j ∉ r' := by
        intro hmem
        have : (mask ^^^ 2^j).testBit j = true := by
          rw [← hmask'] at *
          exact (testBit_maskOf r' j).mpr hmem
        rw [Nat.testBit_xor, hbit, Nat.testBit_two_pow_self] at this
        simp at this
      obtain ⟨harr, hstep⟩ := transVal_some inp d i j v htr
      refine ⟨r' ++ [j], by simp, ?_, ?_, ?_, ?_⟩
      · simp [List.nodup_append, hnd', hjr']
      · intro c hc
        rcases List.mem_append.mp hc with hc | hc
        · exact hlt' c hc
        · rw [List.mem_singleton.mp hc]; exact hj
      · rw [maskOf_append_singleton, hmask', xor_two_pow_or mask j hbit]
      · rw [routeWalkP_append, hwalk']
        show routeWalkP inp i d [j] = some (j, v)
        show (match stepVisit inp j (d + inp.travel_time i j) with
          | none => none
          | some dep => routeWalkP inp j dep []) = some (j, v)
        rw [hstep]
        rfl

/-! ### The objective scan: soundness and dominance of the winner -/

theorem mem_range'_iff (s n a : ℕ) : a ∈ List.range' s n ↔ s ≤ a ∧ a < s + n := by
  rw [List.mem_range']
  constructor
  · rintro ⟨i, hi, rfl⟩; omega
  · rintro ⟨h1, h2⟩; exact ⟨a - s, by omega, by omega⟩

theorem mem_statePairs (inp : SolverInput) (m i : ℕ) :
    (m, i) ∈ statePairs inp ↔
      1 ≤ m ∧ m < 2^inp.n_checkpoints ∧ i < inp.n_checkpoints := by
  have h1 : (1:ℕ) ≤ 2^inp.n_checkpoints := Nat.one_le_two_pow
  unfold statePairs
  rw [List.mem_flatMap]
  constructor
  · rintro ⟨m', hm', hp⟩
    obtain ⟨i', hi', heq⟩ := List.mem_map.mp hp
    rw [Prod.mk.injEq] at heq
    obtain ⟨rfl, rfl⟩ := heq
    rw [mem_range'_iff] at hm'
    exact ⟨by omega, by omega, List.mem_range.mp hi'⟩
  · rintro ⟨hm1, hm2, hi⟩
    exact ⟨m, (mem_range'_iff 1 (2^inp.n_checkpoints - 1) m).mpr ⟨hm1, by omega⟩,
      List.mem_map.mpr ⟨i, List.mem_range.mpr hi, rfl⟩⟩

theorem lt_two_pow_of_bits : ∀ (n m : ℕ), (∀ k, m.testBit k = true → k < n) →
    m < 2^n := by
  intro n
  induction n with
  | zero =>
    intro m h
    have hm : m = 0 := by
      apply Nat.eq_of_testBit_eq
      intro k
      rw [Nat.zero_testBit]
      cases hb : m.testBit k with
      | false => rfl
      | true => exact absurd (h k hb) (by omega)
    rw [hm]; norm_num
  | succ n ih =>
    intro m h
    have hdiv : m / 2 < 2^n := by
      apply ih
      intro k hk
      rw [← Nat.testBit_succ] at hk
      have := h (k+1) hk
      omega
    have := Nat.div_add_mod m 2
    have hp : (2:ℕ)^(n+1) = 2 * 2^n := by rw [pow_succ]; ring
    omega

theorem selStep_eq_dp_none (inp : SolverInput) (b : Option (ℕ × ℚ × ℕ × ℕ))
    (p : ℕ × ℕ) (hd : dp inp p.1 p.2 = none) : selStep inp b p = b := by
  unfold selStep
  rw [hd]

theorem selStep_eq_fe_none (inp : SolverInput) (b : Option (ℕ × ℚ × ℕ × ℕ))
    (p : ℕ × ℕ) (d : ℚ) (hd : dp inp p.1 p.2 = some d)
    (hf : finishEval inp d p.2 = none) : selStep inp b p = b := by
  unfold selStep
  rw [hd]
  show (match finishEval inp d p.2 with
    | none => b
    | some af =>
      match b with
      | none => some (popcount p.1, af, p.1, p.2)
      | some (bc, bf, bm, bi) =>
        if popcount p.1 > bc ∨ (popcount p.1 = bc ∧ af < bf) then
          some (popcount p.1, af, p.1, p.2)
        else some (bc, bf, bm, bi)) = b
  rw [hf]

theorem selStep_eq_cand (inp : SolverInput) (b : Option (ℕ × ℚ × ℕ × ℕ))
    (p : ℕ × ℕ) (d af : ℚ) (hd : dp inp p.1 p.2 = some d)
    (hf : finishEval inp d p.2 = some af) :
    selStep inp b p = (match b with
      | none => some (popcount p.1, af, p.1, p.2)
      | some (bc, bf, bm, bi) =>
        if popcount p.1 > bc ∨ (popcount p.1 = bc ∧ af < bf) then
          some (popcount p.1, af, p.1, p.2)
        else some (bc, bf, bm, bi)) := by
  unfold selStep
  rw [hd]
  show (match finishEval inp d p.2 with
    | none => b
    | some af =>
      match b with
      | none => some (popcount p.1, af, p.1, p.2)
      | some (bc, bf, bm, bi) =>
        if popcount p.1 > bc ∨ (popcount p.1 = bc ∧ af < bf) then
          some (popcount p.1, af, p.1, p.2)
        else some (bc, bf, bm, bi)) = _
  rw [hf]

theorem selStep_inv (inp : SolverInput) (b : Option (ℕ × ℚ × ℕ × ℕ)) (p : ℕ × ℕ)
    (h : selInv inp b) : selInv inp (selStep inp b p) := by
  cases hd : dp inp p.1 p.2 with
  | none => rw [selStep_eq_dp_none inp b p hd]; exact h
  | some d =>
    cases hf : finishEval inp d p.2 with
    | none => rw [selStep_eq_fe_none inp b p d hd hf]; exact h
    | some af =>
      rw [selStep_eq_cand inp b p d af hd hf]
      cases b with
      | none => exact ⟨rfl, d, hd, hf⟩
      | some bb =>
        obtain ⟨bc, bf, bm, bi⟩ := bb
        show selInv inp (if popcount p.1 > bc ∨ (popcount p.1 = bc ∧ af < bf) then
          some (popcount p.1, af, p.1, p.2) else some (bc, bf, bm, bi))
        by_cases hcond : popcount p.1 > bc ∨ (popcount p.1 = bc ∧ af < bf)
        · rw [if_pos hcond]
          exact ⟨rfl, d, hd, hf⟩
        · rw [if_neg hcond]
          exact h

theorem foldl_selStep_inv (inp : SolverInput) (l : List (ℕ × ℕ)) :
    ∀ b, selInv inp b → selInv inp (l.foldl (selStep inp) b) := by
  induction l with
  | nil => intro b h; exact h
  | cons q t ih => intro b h; exact ih _ (selStep_inv inp b q h)

theorem bestState_sound (inp : SolverInput) (c : ℕ) (af : ℚ) (m i : ℕ)
    (h : bestState inp = some (c, af, m, i)) :
    c = popcount m ∧ ∃ d, dp inp m i = some d ∧ finishEval inp d i = some af := by
  have hinv := foldl_selStep_inv inp (statePairs inp) none trivial
  rw [show (statePairs inp).foldl (selStep inp) none = bestState inp from rfl, h]
    at hinv
  exact hinv

theorem selStep_keeps_some (inp : SolverInput) (b : ℕ × ℚ × ℕ × ℕ) (p : ℕ × ℕ) :
    ∃ b', selStep inp (some b) p = some b' ∧
      (b' = b ∨ (b.1 < b'.1 ∨ (b'.1 = b.1 ∧ b'.2.1 ≤ b.2.1))) := by
  obtain ⟨bc, bf, bm, bi⟩ := b
  cases hd : dp inp p.1 p.2 with
  | none => exact ⟨_, selStep_eq_dp_none inp _ p hd, Or.inl rfl⟩
  | some d =>
    cases hf : finishEval inp d p.2 with
    | none => exact ⟨_, selStep_eq_fe_none inp _ p d hd hf, Or.inl rfl⟩
    | some af =>
      rw [selStep_eq_cand inp _ p d af hd hf]
      show ∃ b', (if popcount p.1 > bc ∨ (popcount p.1 = bc ∧ af < bf) then
        some (popcount p.1, af, p.1, p.2) else some (bc, bf, bm, bi)) = some b' ∧ _
      by_cases hcond : popcount p.1 > bc ∨ (popcount p.1 = bc ∧ af < bf)
      · refine ⟨_, by rw [if_pos hcond], Or.inr ?_⟩
        rcases hcond with h | ⟨h1, h2⟩
        · exact Or.inl h
        · exact Or.inr ⟨h1, le_of_lt h2⟩
      · exact ⟨_, by rw [if_neg hcond], Or.inl rfl⟩

theorem selStep_dom (inp : SolverInput) (b b' : ℕ × ℚ × ℕ × ℕ) (p : ℕ × ℕ)
    (c : ℕ) (af : ℚ) (hdom : Dominates b c af)
    (h : selStep inp (some b) p = some b') : Dominates b' c af := by
  obtain ⟨b'', hb'', hrel⟩ := selStep_keeps_some inp b p
  rw [h] at hb''
  obtain rfl : b' = b'' := by injection hb''
  rcases hrel with rfl | hrel
  · exact hdom
  · obtain ⟨h1, h2⟩ := hdom
    rcases hrel with h3 | ⟨h3, h4⟩
    · exact ⟨by omega, fun hc => by omega⟩
    · exact ⟨by omega, fun hc => le_trans h4 (h2 (by omega))⟩

theorem selStep_cand (inp : SolverInput) (b : Option (ℕ × ℚ × ℕ × ℕ))
    (p : ℕ × ℕ) (d af : ℚ) (hd : dp inp p.1 p.2 = some d)
    (hf : finishEval inp d p.2 = some af) :
    ∃ b', selStep inp b p = some b' ∧ Dominates b' (popcount p.1) af := by
  rw [selStep_eq_cand inp b p d af hd hf]
  cases b with
  | none => exact ⟨_, rfl, le_refl _, fun _ => le_refl _⟩
  | some bb =>
    obtain ⟨bc, bf, bm, bi⟩ := bb
    show ∃ b', (if popcount p.1 > bc ∨ (popcount p.1 = bc ∧ af < bf) then
      some (popcount p.1, af, p.1, p.2) else some (bc, bf, bm, bi)) = some b' ∧ _
    by_cases hcond : popcount p.1 > bc ∨ (popcount p.1 = bc ∧ af < bf)
    · refine ⟨_, by rw [if_pos hcond], le_refl _, fun _ => le_refl _⟩
    · rw [if_neg hcond]
      push_neg at hcond
      exact ⟨_, rfl, hcond.1, fun hc => hcond.2 hc⟩

theorem foldl_selStep_dom (inp : SolverInput) (l : List (ℕ × ℕ)) :
    ∀ (b : ℕ × ℚ × ℕ × ℕ) (c : ℕ) (af : ℚ), Dominates b c af →
      ∃ b', l.foldl (selStep inp) (some b) = some b' ∧ Dominates b' c af := by
  induction l with
  | nil => intro b c af h; exact ⟨b, rfl, h⟩
  | cons q t ih =>
    intro b c af h
    obtain ⟨b1, hb1, -⟩ := selStep_keeps_some inp b q
    have hdom1 := selStep_dom inp b b1 q c af h hb1
    obtain ⟨b', hb', hdom'⟩ := ih b1 c af hdom1
    refine ⟨b', ?_, hdom'⟩
    rw [List.foldl_cons, hb1]
    exact hb'

theorem bestState_dominates (inp : SolverInput) (m i : ℕ) (d af : ℚ)
    (hmem : (m, i) ∈ statePairs inp) (hd : dp inp m i = some d)
    (hf : finishEval inp d i = some af) :
    ∃ b', bestState inp = some b' ∧ Dominates b' (popcount m) af := by
  obtain ⟨l1, l2, hsplit⟩ := List.append_of_mem hmem
  unfold bestState
  rw [hsplit, List.foldl_append, List.foldl_cons]
  obtain ⟨b1, hb1, hdom1⟩ :=
    selStep_cand inp (l1.foldl (selStep inp) none) (m, i) d af hd hf
  rw [hb1]
  exact foldl_selStep_dom inp l2 b1 (popcount m) af hdom1

/-- Membership of a populated DP state in the objective scan's order. -/
theorem dp_state_mem_pairs (inp : SolverInput) (m i : ℕ) (d : ℚ)
    (hd : dp inp m i = some d) : (m, i) ∈ statePairs inp := by
  obtain ⟨hi, hbit, -⟩ := dp_some_cases inp m i d hd
  rw [mem_statePairs]
  refine ⟨?_, ?_, hi⟩
  · have := Nat.testBit_implies_ge hbit
    have h2 : (1:ℕ) ≤ 2^i := Nat.one_le_two_pow
    omega
  · exact lt_two_pow_of_bits inp.n_checkpoints m (dp_bits_lt inp m i d hd)

theorem relaxation_refl (inp : SolverInput) : Relaxation inp inp :=
  ⟨rfl, rfl, fun _ => rfl, rfl, rfl, rfl, fun _ _ h => h, fun _ h => h,
    fun _ _ => le_refl _⟩

theorem starts_mono (inp : SolverInput) (hv : ValidInput inp) (s1 s2 : ℕ)
    (h12 : s1 ≤ s2) (h2 : s2 < inp.n_slots) :
    inp.slot_starts s1 ≤ inp.slot_starts s2 := by
  rw [hv.consecutive s1 (by omega), hv.consecutive s2 h2]
  have : (s1 : ℤ) ≤ (s2 : ℤ) := by exact_mod_cast h12
  omega

theorem starts_ge_base (inp : SolverInput) (hv : ValidInput inp) (s : ℕ)
    (h : s < inp.n_slots) : inp.slot_starts 0 ≤ inp.slot_starts s := by
  rw [hv.consecutive s h]
  omega

theorem canonicalZ_facts (w : ℤ) :
    canonicalZ w ≤ w ∧ w < canonicalZ w + 60 ∧ 30 ∣ canonicalZ w := by
  have hmod1 : 0 ≤ w % 60 := Int.emod_nonneg w (by norm_num)
  have hmod2 : w % 60 < 60 := Int.emod_lt_of_pos w (by norm_num)
  have hdm := Int.ediv_add_emod w 60
  unfold canonicalZ
  split_ifs with h
  · exact ⟨by omega, by omega, ⟨2 * (w / 60) + 1, by ring⟩⟩
  · exact ⟨by omega, by omega, ⟨2 * (w / 60), by ring⟩⟩

theorem canonicalZ_mono (w1 w2 : ℤ) (h : w1 ≤ w2) :
    canonicalZ w1 ≤ canonicalZ w2 := by
  have ha : w1 / 60 ≤ w2 / 60 := Int.ediv_le_ediv (by norm_num) h
  have hm1 : 0 ≤ w1 % 60 := Int.emod_nonneg w1 (by norm_num)
  have hm2 : w1 % 60 < 60 := Int.emod_lt_of_pos w1 (by norm_num)
  have hm3 : 0 ≤ w2 % 60 := Int.emod_nonneg w2 (by norm_num)
  have hm4 : w2 % 60 < 60 := Int.emod_lt_of_pos w2 (by norm_num)
  have hd1 := Int.ediv_add_emod w1 60
  have hd2 := Int.ediv_add_emod w2 60
  unfold canonicalZ
  split_ifs <;> omega

theorem canonicalZ_fixed (b : ℤ) (hb : b % 60 = 0) : canonicalZ b = b := by
  have hd := Int.ediv_add_emod b 60
  unfold canonicalZ
  rw [hb]
  norm_num
  omega

theorem cIntOfRat_eq_floor (q : ℚ) (h : 0 ≤ q) : cIntOfRat q = ⌊q⌋ := by
  rw [Rat.floor_def]
  unfold cIntOfRat
  exact Int.tdiv_eq_ediv (Rat.num_nonneg.mpr h) (by positivity)

theorem find?_range_unique (M k : ℕ) (p : ℕ → Bool) (hk : k < M)
    (hpk : p k = true) (huniq : ∀ s, s < M → p s = true → s = k) :
    (List.range M).find? p = some k := by
  rw [List.range_eq_range']
  cases hf : (List.range' 0 M).find? p with
  | none =>
    rw [find?_range'_none] at hf
    exact absurd hpk (by simp [hf k (by omega) (by omega)])
  | some s =>
    obtain ⟨-, hlt, hps, -⟩ := find?_range'_some M 0 s hf
    rw [huniq s (by omega) hps]

/-- Under a valid input, the slot index of an in-range arrival is total and
has the closed form `min (M-1) ((canonical − base)/30)`. -/
theorem slotIndex_closed_form (inp : SolverInput) (hv : ValidInput inp) (t : ℚ)
    (ht : (inp.slot_starts 0 : ℚ) ≤ t) :
    arrival_to_slot_index inp t =
      some (min (inp.n_slots - 1)
        ((canonicalZ ⌊t⌋ - inp.slot_starts 0) / 30).toNat) := by
  have ht0 : (0:ℚ) ≤ t := le_trans (by exact_mod_cast hv.base_nonneg) ht
  have hw0 : (0:ℤ) ≤ ⌊t⌋ := by
    rw [Int.le_floor]
    exact_mod_cast ht0
  have hwb : inp.slot_starts 0 ≤ ⌊t⌋ := by
    rw [Int.le_floor]
    exact_mod_cast ht
  have hcanb : inp.slot_starts 0 ≤ canonicalZ ⌊t⌋ := by
    rw [← canonicalZ_fixed (inp.slot_starts 0) hv.base_hour]
    exact canonicalZ_mono _ _ hwb
  have hb30 : (30:ℤ) ∣ inp.slot_starts 0 := by
    obtain ⟨c, hc⟩ := Int.dvd_of_emod_eq_zero hv.base_hour
    exact ⟨2 * c, by omega⟩
  obtain ⟨-, -, hc30⟩ := canonicalZ_facts ⌊t⌋
  obtain ⟨q, hq⟩ : ∃ q : ℤ, canonicalZ ⌊t⌋ - inp.slot_starts 0 = 30 * q := by
    obtain ⟨c1, h1⟩ := hc30
    obtain ⟨c2, h2⟩ := hb30
    exact ⟨c1 - c2, by omega⟩
  have hq0 : 0 ≤ q := by omega
  unfold arrival_to_slot_index
  rw [if_neg (not_lt.mpr ht)]
  have hwhole : cIntOfRat t = ⌊t⌋ := cIntOfRat_eq_floor t ht0
  have htd : (cIntOfRat t).tdiv 60 = ⌊t⌋ / 60 := by
    rw [hwhole]
    exact Int.tdiv_eq_ediv hw0 (by norm_num)
  have htm : (cIntOfRat t).tmod 60 = ⌊t⌋ % 60 := by
    rw [hwhole]
    exact Int.tmod_eq_emod hw0 (by norm_num)
  have hst : slotTimeOf t = canonicalZ ⌊t⌋ := by
    unfold slotTimeOf canonicalZ
    rw [htd, htm]
    ring_nf
  rw [hst]
  have hM1 := hv.m_pos
  have hlast := hv.consecutive (inp.n_slots - 1) (by omega)
  by_cases hgt : canonicalZ ⌊t⌋ > inp.slot_starts (inp.n_slots - 1)
  · rw [if_pos hgt]
    have : (inp.n_slots - 1 : ℤ) < q := by
      rw [hlast] at hgt
      have hcast : ((inp.n_slots - 1 : ℕ) : ℤ) = (inp.n_slots : ℤ) - 1 := by
        have : 1 ≤ inp.n_slots := hv.m_pos
        omega
      omega
    have hmin : min (inp.n_slots - 1) q.toNat = inp.n_slots - 1 := by
      apply min_eq_left
      omega
    rw [show ((canonicalZ ⌊t⌋ - inp.slot_starts 0) / 30).toNat = q.toNat by
      rw [hq]; rw [Int.mul_ediv_cancel_left _ (by norm_num)], hmin]
  · rw [if_neg hgt]
    push_neg at hgt
    have hqM : q ≤ (inp.n_slots - 1 : ℕ) := by
      rw [hlast] at hgt
      have hcast : ((inp.n_slots - 1 : ℕ) : ℤ) = (inp.n_slots : ℤ) - 1 := by
        have : 1 ≤ inp.n_slots := hv.m_pos
        omega
      omega
    have hk : q.toNat < inp.n_slots := by omega
    have hmin : min (inp.n_slots - 1) ((canonicalZ ⌊t⌋ - inp.slot_starts 0) / 30).toNat
        = q.toNat := by
      rw [hq, Int.mul_ediv_cancel_left _ (by norm_num)]
      apply min_eq_right
      omega
    rw [hmin]
    apply find?_range_unique inp.n_slots q.toNat _ hk
    · rw [decide_eq_true_eq, hv.consecutive q.toNat hk]
      omega
    · intro s hs hps
      rw [decide_eq_true_eq, hv.consecutive s hs] at hps
      omega

theorem slotIndex_none_of_lt (inp : SolverInput) (t : ℚ)
    (ht : t < (inp.slot_starts 0 : ℚ)) : arrival_to_slot_index inp t = none := by
  unfold arrival_to_slot_index
  rw [if_pos ht]

theorem slotIndex_lt (inp : SolverInput) (t : ℚ) (s : ℕ) (hM : 1 ≤ inp.n_slots)
    (h : arrival_to_slot_index inp t = some s) : s < inp.n_slots := by
  unfold arrival_to_slot_index at h
  split_ifs at h with h1 h2
  · simp only [Option.some_inj] at h
    omega
  · have := List.mem_of_find?_eq_some h
    exact List.mem_range.mp this

theorem slotIndex_relax_eq (A B : SolverInput) (hr : Relaxation A B) (t : ℚ) :
    arrival_to_slot_index B t = arrival_to_slot_index A t := by
  unfold arrival_to_slot_index
  rw [hr.m_eq]
  simp only [hr.starts_eq]

theorem slotIndex_mono (inp : SolverInput) (hv : ValidInput inp) (t1 t2 : ℚ)
    (h1 : (inp.slot_starts 0 : ℚ) ≤ t1) (h12 : t1 ≤ t2) :
    ∃ s1 s2, arrival_to_slot_index inp t1 = some s1 ∧
      arrival_to_slot_index inp t2 = some s2 ∧ s1 ≤ s2 ∧
      s1 < inp.n_slots ∧ s2 < inp.n_slots := by
  rw [slotIndex_closed_form inp hv t1 h1,
    slotIndex_closed_form inp hv t2 (le_trans h1 h12)]
  have hM := hv.m_pos
  refine ⟨_, _, rfl, rfl, ?_, ?_, ?_⟩
  · apply min_le_min (le_refl _)
    apply Int.toNat_le_toNat
    apply Int.ediv_le_ediv (by norm_num)
    have := canonicalZ_mono ⌊t1⌋ ⌊t2⌋ (Int.floor_le_floor h12)
    omega
  · omega
  · omega

theorem clamp_mono (inp : SolverInput) (hv : ValidInput inp) (t1 t2 : ℚ)
    (h12 : t1 ≤ t2) :
    (arrival_to_slot_index inp t1).getD 0 ≤ (arrival_to_slot_index inp t2).getD 0 := by
  by_cases hb : (inp.slot_starts 0 : ℚ) ≤ t1
  · obtain ⟨s1, s2, e1, e2, h, -, -⟩ := slotIndex_mono inp hv t1 t2 hb h12
    rw [e1, e2]
    exact h
  · push_neg at hb
    rw [slotIndex_none_of_lt inp t1 hb]
    simp

theorem fno_some_elim (inp : SolverInput) (c : ℕ) (a v : ℚ)
    (h : find_next_open_time inp c a = some v) :
    ∃ s, (arrival_to_slot_index inp a).getD 0 ≤ s ∧ s < inp.n_slots ∧
      inp.open_at c s = true ∧ v = max a (inp.slot_starts s : ℚ) ∧
      ∀ s', (arrival_to_slot_index inp a).getD 0 ≤ s' → s' < s →
        inp.open_at c s' = false := by
  unfold find_next_open_time at h
  cases hf : (List.range' ((arrival_to_slot_index inp a).getD 0)
      (inp.n_slots - (arrival_to_slot_index inp a).getD 0)).find?
      (fun s => inp.open_at c s) with
  | none => rw [hf] at h; simp at h
  | some s =>
    rw [hf] at h
    have h' : max a ((inp.slot_starts s : ℤ) : ℚ) = v := Option.some_inj.mp h
    obtain ⟨h1, h2, h3, h4⟩ := find?_range'_some _ _ s hf
    have hk : (arrival_to_slot_index inp a).getD 0 < inp.n_slots := by
      by_contra hge
      push_neg at hge
      rw [show inp.n_slots - (arrival_to_slot_index inp a).getD 0 = 0 by omega] at hf
      simp [List.range'] at hf
    exact ⟨s, h1, by omega, h3, h'.symm, fun s' hs1 hs2 => h4 s' hs1 hs2⟩

theorem fno_intro (inp : SolverInput) (c : ℕ) (a : ℚ) (s0 : ℕ)
    (h1 : (arrival_to_slot_index inp a).getD 0 ≤ s0) (h2 : s0 < inp.n_slots)
    (h3 : inp.open_at c s0 = true) :
    ∃ s, find_next_open_time inp c a = some (max a (inp.slot_starts s : ℚ)) ∧
      s ≤ s0 ∧ (arrival_to_slot_index inp a).getD 0 ≤ s ∧ s < inp.n_slots ∧
      inp.open_at c s = true := by
  obtain ⟨s, hfind, hle⟩ := find?_range'_le (p := fun s => inp.open_at c s)
    (inp.n_slots - (arrival_to_slot_index inp a).getD 0)
    ((arrival_to_slot_index inp a).getD 0) s0 h1 (by omega) h3
  obtain ⟨hs1, hs2, hs3, -⟩ := find?_range'_some _ _ s hfind
  refine ⟨s, ?_, hle, hs1, by omega, hs3⟩
  unfold find_next_open_time
  rw [hfind]
  rfl

theorem fno_none_iff (inp : SolverInput) (c : ℕ) (a : ℚ) :
    find_next_open_time inp c a = none ↔
      ∀ s, (arrival_to_slot_index inp a).getD 0 ≤ s → s < inp.n_slots →
        inp.open_at c s = false := by
  unfold find_next_open_time
  constructor
  · intro h s hs1 hs2
    cases hf : (List.range' ((arrival_to_slot_index inp a).getD 0)
        (inp.n_slots - (arrival_to_slot_index inp a).getD 0)).find?
        (fun s => inp.open_at c s) with
    | none =>
      rw [find?_range'_none] at hf
      exact hf s hs1 (by omega)
    | some s' => rw [hf] at h; simp at h
  · intro h
    cases hf : (List.range' ((arrival_to_slot_index inp a).getD 0)
        (inp.n_slots - (arrival_to_slot_index inp a).getD 0)).find?
        (fun s => inp.open_at c s) with
    | none => rfl
    | some s' =>
      obtain ⟨h1, h2, h3, -⟩ := find?_range'_some _ _ s' hf
      have hlt : s' < inp.n_slots := by
        by_cases hk : (arrival_to_slot_index inp a).getD 0 < inp.n_slots
        · omega
        · push_neg at hk
          rw [show inp.n_slots - (arrival_to_slot_index inp a).getD 0 = 0 by omega]
            at hf
          simp [List.range'] at hf
      exact absurd h3 (by simp [h s' h1 hlt])

theorem fno_ge_arrival (inp : SolverInput) (c : ℕ) (a v : ℚ)
    (h : find_next_open_time inp c a = some v) : a ≤ v := by
  obtain ⟨s, -, -, -, hv, -⟩ := fno_some_elim inp c a v h
  rw [hv]
  exact le_max_left _ _

theorem fno_ge_base (inp : SolverInput) (hv : ValidInput inp) (c : ℕ) (a v : ℚ)
    (h : find_next_open_time inp c a = some v) :
    (inp.slot_starts 0 : ℚ) ≤ v := by
  obtain ⟨s, -, hsM, -, hveq, -⟩ := fno_some_elim inp c a v h
  rw [hveq]
  have := starts_ge_base inp hv s hsM
  have h2 : (inp.slot_starts 0 : ℚ) ≤ (inp.slot_starts s : ℚ) := by exact_mod_cast this
  exact le_trans h2 (le_max_right _ _)

theorem fno_mono (A B : SolverInput) (hr : Relaxation A B) (hvA : ValidInput A)
    (c : ℕ) (a1 a2 v2 : ℚ) (h12 : a1 ≤ a2)
    (h2 : find_next_open_time A c a2 = some v2) :
    ∃ v1, find_next_open_time B c a1 = some v1 ∧ v1 ≤ v2 := by
  obtain ⟨s2, hk2, hs2M, hopen2, hv2, -⟩ := fno_some_elim A c a2 v2 h2
  have hclampB : (arrival_to_slot_index B a1).getD 0 =
      (arrival_to_slot_index A a1).getD 0 := by
    rw [slotIndex_relax_eq A B hr]
  have hk1 : (arrival_to_slot_index B a1).getD 0 ≤ s2 := by
    rw [hclampB]
    exact le_trans (clamp_mono A hvA a1 a2 h12) hk2
  obtain ⟨s1, hfno1, hs12, -, hs1M, -⟩ := fno_intro B c a1 s2 hk1
    (by rw [hr.m_eq]; exact hs2M) (hr.open_le c s2 hopen2)
  refine ⟨_, hfno1, ?_⟩
  rw [hv2]
  apply max_le
  · exact le_trans h12 (le_max_left _ _)
  · rw [hr.starts_eq]
    have hmono := starts_mono A hvA s1 s2 hs12 hs2M
    have : (A.slot_starts s1 : ℚ) ≤ (A.slot_starts s2 : ℚ) := by exact_mod_cast hmono
    exact le_trans this (le_max_right _ _)

/-! ### Finish-slot evaluation: eliminations, introductions, monotonicity -/

theorem crf_elim (inp : SolverInput) (d : ℚ) (i : ℕ)
    (h : can_reach_finish inp d i = true) :
    d + inp.travel_time i FINISH_IDX ≤ (inp.end_time : ℚ) ∧
    ∃ slot, arrival_to_slot_index inp (d + inp.travel_time i FINISH_IDX) =
        some slot ∧ slot < inp.n_slots ∧
      ∃ s, slot ≤ s ∧ s < inp.n_slots ∧ inp.finish_open s = true ∧
        max (d + inp.travel_time i FINISH_IDX) (inp.slot_starts s : ℚ) ≤
          (inp.end_time : ℚ) := by
  unfold can_reach_finish at h
  by_cases h1 : d + inp.travel_time i FINISH_IDX > (inp.end_time : ℚ)
  · rw [if_pos h1] at h
    exact absurd h (by simp)
  rw [if_neg h1] at h
  cases hsi : arrival_to_slot_index inp (d + inp.travel_time i FINISH_IDX) with
  | none => rw [hsi] at h; simp at h
  | some slot =>
    rw [hsi] at h
    simp only at h
    by_cases h2 : inp.n_slots ≤ slot
    · rw [if_pos h2] at h
      exact absurd h (by simp)
    rw [if_neg h2] at h
    push_neg at h1 h2
    obtain ⟨s, hsmem, hs⟩ := List.any_eq_true.mp h
    rw [mem_range'_iff] at hsmem
    simp only [Bool.and_eq_true, decide_eq_true_eq] at hs
    exact ⟨h1, slot, rfl, h2, s, hsmem.1, by omega, hs.1, hs.2⟩

theorem crf_intro (inp : SolverInput) (d : ℚ) (i : ℕ) (slot s : ℕ)
    (h1 : d + inp.travel_time i FINISH_IDX ≤ (inp.end_time : ℚ))
    (hsi : arrival_to_slot_index inp (d + inp.travel_time i FINISH_IDX) = some slot)
    (h2 : slot < inp.n_slots) (h3 : slot ≤ s) (h4 : s < inp.n_slots)
    (h5 : inp.finish_open s = true)
    (h6 : max (d + inp.travel_time i FINISH_IDX) (inp.slot_starts s : ℚ) ≤
      (inp.end_time : ℚ)) :
    can_reach_finish inp d i = true := by
  unfold can_reach_finish
  rw [if_neg (not_lt.mpr h1), hsi]
  simp only
  rw [if_neg (not_le.mpr h2)]
  apply List.any_eq_true.mpr
  exact ⟨s, (mem_range'_iff slot (inp.n_slots - slot) s).mpr ⟨h3, by omega⟩,
    by simp [h5, h6]⟩

theorem finishEval_some_elim (inp : SolverInput) (d : ℚ) (i : ℕ) (af : ℚ)
    (h : finishEval inp d i = some af) :
    d + inp.travel_time i FINISH_IDX ≤ (inp.end_time : ℚ) ∧
    ∃ fslot, arrival_to_slot_index inp (d + inp.travel_time i FINISH_IDX) =
        some fslot ∧ fslot < inp.n_slots ∧
      ∃ s, fslot ≤ s ∧ s < inp.n_slots ∧ inp.finish_open s = true ∧
        af = max (d + inp.travel_time i FINISH_IDX) (inp.slot_starts s : ℚ) ∧
        0 ≤ af ∧ af ≤ (inp.end_time : ℚ) := by
  unfold finishEval at h
  by_cases h1 : d + inp.travel_time i FINISH_IDX > (inp.end_time : ℚ)
  · rw [if_pos h1] at h
    simp at h
  rw [if_neg h1] at h
  cases hsi : arrival_to_slot_index inp (d + inp.travel_time i FINISH_IDX) with
  | none => rw [hsi] at h; simp at h
  | some fslot =>
    rw [hsi] at h
    simp only at h
    cases hfind : (List.range' fslot (inp.n_slots - fslot)).find?
        (fun s => inp.finish_open s) with
    | none => rw [hfind] at h; simp at h
    | some s =>
      rw [hfind] at h
      simp only at h
      by_cases h2 : max (d + inp.travel_time i FINISH_IDX)
            (inp.slot_starts s : ℚ) < 0 ∨
          max (d + inp.travel_time i FINISH_IDX) (inp.slot_starts s : ℚ) >
            (inp.end_time : ℚ)
      · rw [if_pos h2] at h
        simp at h
      rw [if_neg h2] at h
      push_neg at h1 h2
      simp only [Option.some_inj] at h
      obtain ⟨hs1, hs2, hs3, -⟩ := find?_range'_some _ _ s hfind
      have hfslotM : fslot < inp.n_slots := by
        by_contra hge
        push_neg at hge
        rw [show inp.n_slots - fslot = 0 by omega] at hfind
        simp [List.range'] at hfind
      exact ⟨h1, fslot, rfl, hfslotM, s, hs1, by omega, hs3, h.symm,
        h ▸ h2.1, h ▸ h2.2⟩

theorem finishEval_intro (inp : SolverInput) (hv : ValidInput inp) (d : ℚ)
    (i : ℕ) (fslot s : ℕ)
    (h1 : d + inp.travel_time i FINISH_IDX ≤ (inp.end_time : ℚ))
    (hsi : arrival_to_slot_index inp (d + inp.travel_time i FINISH_IDX) =
      some fslot)
    (h3 : fslot ≤ s) (h4 : s < inp.n_slots) (h5 : inp.finish_open s = true)
    (h6 : max (d + inp.travel_time i FINISH_IDX) (inp.slot_starts s : ℚ) ≤
      (inp.end_time : ℚ)) :
    ∃ af, finishEval inp d i = some af ∧
      af ≤ max (d + inp.travel_time i FINISH_IDX) (inp.slot_starts s : ℚ) := by
  obtain ⟨s0, hfind, hs0s⟩ := find?_range'_le (p := fun s => inp.finish_open s)
    (inp.n_slots - fslot) fslot s h3 (by omega) h5
  obtain ⟨hg1, hg2, hg3, -⟩ := find?_range'_some _ _ s0 hfind
  have hs0M : s0 < inp.n_slots := by omega
  have hstarts : (inp.slot_starts s0 : ℚ) ≤ (inp.slot_starts s : ℚ) := by
    exact_mod_cast starts_mono inp hv s0 s hs0s h4
  have hbound : max (d + inp.travel_time i FINISH_IDX) (inp.slot_starts s0 : ℚ) ≤
      max (d + inp.travel_time i FINISH_IDX) (inp.slot_starts s : ℚ) :=
    max_le (le_max_left _ _) (le_trans hstarts (le_max_right _ _))
  have hnonneg : (0:ℚ) ≤
      max (d + inp.travel_time i FINISH_IDX) (inp.slot_starts s0 : ℚ) := by
    have hb : (0:ℤ) ≤ inp.slot_starts s0 :=
      le_trans hv.base_nonneg (starts_ge_base inp hv s0 hs0M)
    have : (0:ℚ) ≤ (inp.slot_starts s0 : ℚ) := by exact_mod_cast hb
    exact le_trans this (le_max_right _ _)
  refine ⟨_, ?_, hbound⟩
  unfold finishEval
  rw [if_neg (not_lt.mpr h1), hsi]
  simp only
  rw [hfind]
  simp only
  rw [if_neg (not_or.mpr ⟨not_lt.mpr hnonneg, not_lt.mpr (le_trans hbound h6)⟩)]

theorem crf_of_finishEval (inp : SolverInput) (d : ℚ) (i : ℕ) (af : ℚ)
    (h : finishEval inp d i = some af) : can_reach_finish inp d i = true := by
  obtain ⟨h1, fslot, hsi, hfM, s, hs1, hs2, hs3, haf, -, hafe⟩ :=
    finishEval_some_elim inp d i af h
  exact crf_intro inp d i fslot s h1 hsi hfM hs1 hs2 hs3 (haf ▸ hafe)

theorem finishEval_of_crf (inp : SolverInput) (hv : ValidInput inp) (d : ℚ)
    (i : ℕ) (h : can_reach_finish inp d i = true) :
    ∃ af, finishEval inp d i = some af ∧ af ≤ (inp.end_time : ℚ) := by
  obtain ⟨h1, slot, hsi, hslotM, s, hs1, hs2, hs3, hmax⟩ := crf_elim inp d i h
  obtain ⟨af, haf, hbound⟩ :=
    finishEval_intro inp hv d i slot s h1 hsi hs1 hs2 hs3 hmax
  exact ⟨af, haf, le_trans hbound hmax⟩

theorem finishEval_mono (A B : SolverInput) (hr : Relaxation A B)
    (hvA : ValidInput A) (hvB : ValidInput B) (d1 d2 : ℚ) (i : ℕ) (af2 : ℚ)
    (hi : i < 19) (h12 : d1 ≤ d2) (hd1 : (A.slot_starts 0 : ℚ) ≤ d1)
    (h2 : finishEval A d2 i = some af2) :
    ∃ af1, finishEval B d1 i = some af1 ∧ af1 ≤ af2 := by
  obtain ⟨hle2, fslot2, hsi2, hfM2, s, hs1, hs2, hs3, haf, -, hafe⟩ :=
    finishEval_some_elim A d2 i af2 h2
  have hTB : 0 ≤ B.travel_time i FINISH_IDX :=
    hvB.travel_nonneg i FINISH_IDX hi (by norm_num [FINISH_IDX])
  have hf1f2 : d1 + B.travel_time i FINISH_IDX ≤ d2 + A.travel_time i FINISH_IDX :=
    add_le_add h12 (hr.travel_le i FINISH_IDX)
  have hf1b : (A.slot_starts 0 : ℚ) ≤ d1 + B.travel_time i FINISH_IDX := by
    have : d1 ≤ d1 + B.travel_time i FINISH_IDX := by linarith
    linarith
  obtain ⟨s1, s2, hsi1, hsi2', hs12, hs1M, -⟩ := slotIndex_mono A hvA
    (d1 + B.travel_time i FINISH_IDX) (d2 + A.travel_time i FINISH_IDX) hf1b hf1f2
  rw [hsi2] at hsi2'
  obtain rfl : fslot2 = s2 := by injection hsi2'
  have hsiB : arrival_to_slot_index B (d1 + B.travel_time i FINISH_IDX) = some s1 := by
    rw [slotIndex_relax_eq A B hr]
    exact hsi1
  have hle1 : d1 + B.travel_time i FINISH_IDX ≤ (B.end_time : ℚ) := by
    rw [hr.end_eq]
    exact le_trans hf1f2 hle2
  have hmax2 : max (d2 + A.travel_time i FINISH_IDX) (A.slot_starts s : ℚ) ≤
      (A.end_time : ℚ) := haf ▸ hafe
  obtain ⟨af1, haf1, hb1⟩ := finishEval_intro B hvB d1 i s1 s hle1 hsiB
    (by omega) (by rw [hr.m_eq]; exact hs2) (hr.fin_le s hs3)
    (by
      rw [hr.starts_eq, hr.end_eq]
      exact max_le (le_trans hf1f2 (le_trans (le_max_left _ _) hmax2))
        (le_trans (le_max_right _ _) hmax2))
  refine ⟨af1, haf1, ?_⟩
  rw [haf]
  refine le_trans hb1 ?_
  rw [hr.starts_eq]
  exact max_le (le_trans hf1f2 (le_max_left _ _)) (le_max_right _ _)

theorem crf_mono (A B : SolverInput) (hr : Relaxation A B) (hvA : ValidInput A)
    (hvB : ValidInput B) (d1 d2 : ℚ) (i : ℕ) (hi : i < 19) (h12 : d1 ≤ d2)
    (hd1 : (A.slot_starts 0 : ℚ) ≤ d1) (h : can_reach_finish A d2 i = true) :
    can_reach_finish B d1 i = true := by
  obtain ⟨hle2, slot2, hsi2, hslot2M, s, hs1, hs2, hs3, hmax⟩ := crf_elim A d2 i h
  have hTB : 0 ≤ B.travel_time i FINISH_IDX :=
    hvB.travel_nonneg i FINISH_IDX hi (by norm_num [FINISH_IDX])
  have hf1f2 : d1 + B.travel_time i FINISH_IDX ≤ d2 + A.travel_time i FINISH_IDX :=
    add_le_add h12 (hr.travel_le i FINISH_IDX)
  have hf1b : (A.slot_starts 0 : ℚ) ≤ d1 + B.travel_time i FINISH_IDX := by
    linarith
  obtain ⟨s1, s2, hsi1, hsi2', hs12, hs1M, -⟩ := slotIndex_mono A hvA
    (d1 + B.travel_time i FINISH_IDX) (d2 + A.travel_time i FINISH_IDX) hf1b hf1f2
  rw [hsi2] at hsi2'
  obtain rfl : slot2 = s2 := by injection hsi2'
  apply crf_intro B d1 i s1 s
  · rw [hr.end_eq]
    exact le_trans hf1f2 hle2
  · rw [slotIndex_relax_eq A B hr]
    exact hsi1
  · rw [hr.m_eq]
    exact hs1M
  · omega
  · rw [hr.m_eq]
    exact hs2
  · exact hr.fin_le s hs3
  · rw [hr.starts_eq, hr.end_eq]
    exact max_le (le_trans hf1f2 (le_trans (le_max_left _ _) hmax))
      (le_trans (le_max_right _ _) hmax)

theorem stepVisit_mono (A B : SolverInput) (hr : Relaxation A B)
    (hvA : ValidInput A) (hvB : ValidInput B) (j : ℕ) (hj : j < 19)
    (a1 a2 dep2 : ℚ) (h12 : a1 ≤ a2) (h : stepVisit A j a2 = some dep2) :
    ∃ dep1, stepVisit B j a1 = some dep1 ∧ dep1 ≤ dep2 := by
  obtain ⟨hod, hcrf⟩ := stepVisit_some A j a2 dep2 h
  obtain ⟨ot2, hfno2, hdep2, hdend2⟩ := openDepart_some A j a2 dep2 hod
  obtain ⟨ot1, hfno1, hot12⟩ := fno_mono A B hr hvA j a1 a2 ot2 h12 hfno2
  have hdw : (B.dwell : ℚ) = (A.dwell : ℚ) := by exact_mod_cast hr.dwell_eq
  have hdep1le : ot1 + (B.dwell : ℚ) ≤ dep2 := by
    rw [hdw, hdep2]
    linarith
  have hod1 : openDepart B j a1 = some (ot1 + (B.dwell : ℚ)) := by
    unfold openDepart
    rw [hfno1]
    simp only
    rw [if_neg (not_lt.mpr (by rw [hr.end_eq]; exact le_trans hdep1le hdend2))]
  have hd1base : (A.slot_starts 0 : ℚ) ≤ ot1 + (B.dwell : ℚ) := by
    have h1 := fno_ge_base B hvB j a1 ot1 hfno1
    rw [hr.starts_eq] at h1
    have h2 : (0:ℚ) ≤ (B.dwell : ℚ) := by exact_mod_cast hvB.dwell_nonneg
    linarith
  have hcrf1 : can_reach_finish B (ot1 + (B.dwell : ℚ)) j = true :=
    crf_mono A B hr hvA hvB (ot1 + (B.dwell : ℚ)) dep2 j hj hdep1le hd1base hcrf
  exact ⟨ot1 + (B.dwell : ℚ), stepVisit_some_of B j a1 _ hod1 hcrf1, hdep1le⟩

theorem transVal_mono (A B : SolverInput) (hr : Relaxation A B)
    (hvA : ValidInput A) (hvB : ValidInput B) (d1 d2 : ℚ) (i j : ℕ)
    (hj : j < 19) (e2 : ℚ) (h12 : d1 ≤ d2) (h : transVal A d2 i j = some e2) :
    ∃ e1, transVal B d1 i j = some e1 ∧ e1 ≤ e2 := by
  obtain ⟨harr2, hstep2⟩ := transVal_some A d2 i j e2 h
  have harr12 : d1 + B.travel_time i j ≤ d2 + A.travel_time i j :=
    add_le_add h12 (hr.travel_le i j)
  obtain ⟨e1, hstep1, he12⟩ := stepVisit_mono A B hr hvA hvB j hj
    (d1 + B.travel_time i j) (d2 + A.travel_time i j) e2 harr12 hstep2
  refine ⟨e1, ?_, he12⟩
  unfold transVal
  rw [if_neg (not_lt.mpr (by rw [hr.end_eq]; exact le_trans harr12 harr2))]
  exact hstep1

theorem routeWalkP_mono (A B : SolverInput) (hr : Relaxation A B)
    (hvA : ValidInput A) (hvB : ValidInput B) (l : List ℕ)
    (hl : ∀ x ∈ l, x < 19) :
    ∀ (cur : ℕ) (t1 t2 : ℚ) (c2 : ℕ) (u2 : ℚ), t1 ≤ t2 →
      routeWalkP A cur t2 l = some (c2, u2) →
      ∃ u1, routeWalkP B cur t1 l = some (c2, u1) ∧ u1 ≤ u2 := by
  induction l with
  | nil =>
    intro cur t1 t2 c2 u2 h12 h
    simp only [routeWalkP, Option.some_inj, Prod.mk.injEq] at h
    obtain ⟨rfl, rfl⟩ := h
    exact ⟨t1, rfl, h12⟩
  | cons j rest ih =>
    intro cur t1 t2 c2 u2 h12 h
    have h' : (match stepVisit A j (t2 + A.travel_time cur j) with
      | none => none
      | some dep => routeWalkP A j dep rest) = some (c2, u2) := h
    cases hs2 : stepVisit A j (t2 + A.travel_time cur j) with
    | none => rw [hs2] at h'; simp at h'
    | some dep2 =>
      rw [hs2] at h'
      have harr : t1 + B.travel_time cur j ≤ t2 + A.travel_time cur j :=
        add_le_add h12 (hr.travel_le cur j)
      obtain ⟨dep1, hs1, hdep12⟩ := stepVisit_mono A B hr hvA hvB j
        (by have := hl j (by simp); omega) _ _ dep2 harr hs2
      obtain ⟨u1, hw1, hu12⟩ := ih (fun x hx => hl x (by simp [hx]))
        j dep1 dep2 c2 u2 hdep12 h'
      refine ⟨u1, ?_, hu12⟩
      show (match stepVisit B j (t1 + B.travel_time cur j) with
        | none => none
        | some dep => routeWalkP B j dep rest) = some (c2, u1)
      rw [hs1]
      exact hw1

theorem dp_ge_base (inp : SolverInput) (hv : ValidInput inp) (mask j : ℕ) (v : ℚ)
    (h : dp inp mask j = some v) : (inp.slot_starts 0 : ℚ) ≤ v := by
  obtain ⟨arr, hstep⟩ := dp_some_step inp mask j v h
  obtain ⟨hod, -⟩ := stepVisit_some inp j arr v hstep
  obtain ⟨ot, hfno, hdep, -⟩ := openDepart_some inp j arr v hod
  have h1 := fno_ge_base inp hv j arr ot hfno
  have h2 : (0:ℚ) ≤ (inp.dwell : ℚ) := by exact_mod_cast hv.dwell_nonneg
  rw [hdep]
  linarith

/-! ### DP completeness: every pruned-feasible route is dominated in the table -/

theorem dp_complete (inp : SolverInput) (hv : ValidInput inp) :
    ∀ (l : List ℕ) (c : ℕ) (t : ℚ), l ≠ [] → l.Nodup →
      (∀ x ∈ l, x < inp.n_checkpoints) →
      routeWalkP inp START_IDX (inp.start_time : ℚ) l = some (c, t) →
      ∃ v, dp inp (maskOf l) c = some v ∧ v ≤ t := by
  intro l
  induction l using List.reverseRecOn with
  | nil => intro c t hne; exact absurd rfl hne
  | append_singleton l' j ih =>
    intro c t hne hnd hlt hwalk
    rw [routeWalkP_append] at hwalk
    cases hw' : routeWalkP inp START_IDX (inp.start_time : ℚ) l' with
    | none => rw [hw'] at hwalk; simp at hwalk
    | some p =>
      obtain ⟨c', t'⟩ := p
      rw [hw'] at hwalk
      have hwalk' : (match stepVisit inp j (t' + inp.travel_time c' j) with
        | none => none
        | some dep => routeWalkP inp j dep []) = some (c, t) := hwalk
      cases hs : stepVisit inp j (t' + inp.travel_time c' j) with
      | none => rw [hs] at hwalk'; simp at hwalk'
      | some dep =>
        rw [hs] at hwalk'
        simp only [routeWalkP, Option.some_inj, Prod.mk.injEq] at hwalk'
        obtain ⟨rfl, rfl⟩ := hwalk'
        have hj : j < inp.n_checkpoints := hlt j (by simp)
        rcases List.eq_nil_or_concat' l' with rfl | hcons
        · -- the singleton route [j]
          have hc' : c' = START_IDX ∧ t' = (inp.start_time : ℚ) := by
            simp only [routeWalkP, Option.some_inj, Prod.mk.injEq] at hw'
            exact ⟨hw'.1.symm, hw'.2.symm⟩
          obtain ⟨rfl, rfl⟩ := hc'
          refine ⟨dep, ?_, le_refl dep⟩
          rw [show maskOf ([] ++ [j]) = 2^j by
            rw [List.nil_append, maskOf_cons, maskOf_nil, Nat.or_zero],
            dp_singleton inp j hj]
          exact hs
        · -- l' nonempty: extend the DP state of l'
          have hl'ne : l' ≠ [] := by
            rcases hcons with ⟨l'', a, rfl⟩
            simp
          have hnd' : l'.Nodup := (List.nodup_append.mp hnd).1
          have hjl' : j ∉ l' := by
            intro hmem
            have := (List.nodup_append.mp hnd).2.2
            exact this hmem (List.mem_singleton.mpr rfl)
          obtain ⟨v', hv', hv't'⟩ := ih c' t' hl'ne hnd'
            (fun x hx => hlt x (by simp [hx])) hw'
          have hcmem : c' ∈ l' := routeWalkP_last_mem inp l' START_IDX
            (inp.start_time : ℚ) c' t' hw' hl'ne
          have hcN : c' < inp.n_checkpoints := hlt c' (by simp [hcmem])
          obtain ⟨hod, -⟩ := stepVisit_some inp j _ dep hs
          obtain ⟨ot, hfno, hdepeq, hdend⟩ := openDepart_some inp j _ dep hod
          have harr2 : t' + inp.travel_time c' j ≤ (inp.end_time : ℚ) := by
            have h1 := fno_ge_arrival inp j _ ot hfno
            have h2 : (0:ℚ) ≤ (inp.dwell : ℚ) := by exact_mod_cast hv.dwell_nonneg
            rw [hdepeq] at hdend
            linarith
          have hn17 := hv.n_le
          obtain ⟨e, hstep', he⟩ := stepVisit_mono inp inp (relaxation_refl inp)
            hv hv j (by omega) (v' + inp.travel_time c' j)
            (t' + inp.travel_time c' j) dep
            (add_le_add hv't' (le_refl _)) hs
          have htr : transVal inp v' c' j = some e := by
            unfold transVal
            rw [if_neg (not_lt.mpr (le_trans
              (add_le_add hv't' (le_refl (inp.travel_time c' j))) harr2))]
            exact hstep'
          have hbitl' : (maskOf l').testBit j = false := by
            cases hb : (maskOf l').testBit j with
            | false => rfl
            | true => exact absurd ((testBit_maskOf l' j).mp hb) hjl'
          have hbitc : (maskOf l').testBit c' = true :=
            (testBit_maskOf l' c').mpr hcmem
          have hmaskne : maskOf l' ≠ 0 := by
            intro h0
            rw [h0] at hbitc
            simp [Nat.zero_testBit] at hbitc
          have hmask : maskOf (l' ++ [j]) = maskOf l' ||| 2^j :=
            maskOf_append_singleton l' j
          have hbitj : (maskOf (l' ++ [j])).testBit j = true := by
            rw [hmask, Nat.testBit_or, Nat.testBit_two_pow_self]
            simp
          have hxor : maskOf (l' ++ [j]) ^^^ 2^j = maskOf l' := by
            rw [hmask]
            exact or_two_pow_xor_cancel (maskOf l') j hbitl'
          have hne2 : maskOf (l' ++ [j]) ≠ 2^j := by
            rw [hmask]
            exact or_two_pow_ne_two_pow (maskOf l') j hmaskne hbitl'
          obtain ⟨v, hvdp, hvle⟩ := dp_le_of_trans inp (maskOf (l' ++ [j])) j c'
            v' e hj hcN hbitj hne2 (by rw [hxor]; exact hbitc)
            (by rw [hxor]; exact hv') htr
          exact ⟨v, hvdp, le_trans hvle he⟩

theorem popcount_maskOf (r : List ℕ) (hnd : r.Nodup) :
    popcount (maskOf r) = r.length := by
  induction r with
  | nil => rfl
  | cons c t ih =>
    rw [maskOf_cons, Nat.or_comm, popcount_or_two_pow c (maskOf t) ?_,
      ih (List.Nodup.of_cons hnd), List.length_cons]
    cases hb : (maskOf t).testBit c with
    | false => rfl
    | true =>
      have := (testBit_maskOf t c).mp hb
      exact absurd this (List.Nodup.not_mem hnd)

/-! ### The solver's objective characterization -/

/-- Completeness half: every pruned-feasible route is dominated by the
winner of the objective scan. -/
theorem solve_bound (inp : SolverInput) (hv : ValidInput inp) (r : List ℕ)
    (f : ℚ) (hpr : PrunedFeasibleRoute inp r f) :
    ∃ c bf m i, bestState inp = some (c, bf, m, i) ∧ r.length ≤ c ∧
      (r.length = c → bf ≤ f) := by
  obtain ⟨hne, hnd, hlt, hfin⟩ := hpr
  unfold routeFinishP at hfin
  cases hw : routeWalkP inp START_IDX (inp.start_time : ℚ) r with
  | none => rw [hw] at hfin; simp at hfin
  | some p =>
    obtain ⟨c0, t⟩ := p
    rw [hw] at hfin
    obtain ⟨v, hvdp, hvt⟩ := dp_complete inp hv r c0 t hne hnd hlt hw
    have hc0r : c0 ∈ r := routeWalkP_last_mem inp r START_IDX _ c0 t hw hne
    have hc019 : c0 < 19 := by
      have := hlt c0 hc0r
      have := hv.n_le
      omega
    have hvbase : (inp.slot_starts 0 : ℚ) ≤ v := dp_ge_base inp hv _ _ v hvdp
    obtain ⟨af, haf, hafle⟩ := finishEval_mono inp inp (relaxation_refl inp)
      hv hv v t c0 f hc019 hvt hvbase hfin
    obtain ⟨b', hb', hdom⟩ := bestState_dominates inp (maskOf r) c0 v af
      (dp_state_mem_pairs inp (maskOf r) c0 v hvdp) hvdp haf
    obtain ⟨bc, bf, bm, bi⟩ := b'
    refine ⟨bc, bf, bm, bi, hb', ?_, ?_⟩
    · have := hdom.1
      rw [popcount_maskOf r hnd] at this
      exact this
    · intro heq
      have h2 := hdom.2 (by rw [← popcount_maskOf r hnd] at heq; exact heq)
      exact le_trans h2 hafle

/-- Soundness half: the winner of the objective scan is realized by a
pruned-feasible route of exactly its count and finish time. -/
theorem solve_achieves (inp : SolverInput) (c : ℕ) (bf : ℚ) (m i : ℕ)
    (h : bestState inp = some (c, bf, m, i)) :
    ∃ r, PrunedFeasibleRoute inp r bf ∧ r.length = c := by
  obtain ⟨hc, d, hd, hfe⟩ := bestState_sound inp c bf m i h
  obtain ⟨r, hne, hnd, hlt, hmask, hwalk⟩ := dp_sound inp m i d hd
  refine ⟨r, ⟨hne, hnd, hlt, ?_⟩, ?_⟩
  · unfold routeFinishP
    rw [hwalk]
    exact hfe
  · rw [← hmask] at hc
    rw [hc, popcount_maskOf r hnd]

/-! ### Parent links and route reconstruction -/

theorem parentOf_of_dp_none (inp : SolverInput) (mask p : ℕ)
    (h : dp inp mask p = none) : parentOf inp mask p = .unvisited := by
  unfold parentOf
  rw [h]

theorem parentOf_fromStart (inp : SolverInput) (p : ℕ) (v : ℚ)
    (h : dp inp (2^p) p = some v) : parentOf inp (2^p) p = .fromStart := by
  unfold parentOf
  rw [h]
  simp

theorem parentOf_prev_of_dp (inp : SolverInput) (mask p : ℕ) (v : ℚ)
    (h : dp inp mask p = some v) (hne : mask ≠ 2^p) :
    ∃ i, parentOf inp mask p = .prev (mask ^^^ 2^p) i ∧ i < inp.n_checkpoints ∧
      (mask ^^^ 2^p).testBit i = true ∧
      ∃ d, dp inp (mask ^^^ 2^p) i = some d ∧ transVal inp d i p = some v := by
  obtain ⟨hp, hbit, hcase⟩ := dp_some_cases inp mask p v h
  rcases hcase with ⟨hsing, -⟩ | ⟨-, i0, hi0, hbit0, d0, hd0, htr0⟩
  · exact absurd hsing hne
  unfold parentOf
  rw [h]
  simp only
  rw [if_neg hne]
  cases hfind : (List.range inp.n_checkpoints).find? (fun i =>
      (mask ^^^ 2^p).testBit i &&
      (match dp inp (mask ^^^ 2^p) i with
       | none => false
       | some d => transVal inp d i p == some v)) with
  | none =>
    exfalso
    rw [List.find?_eq_none] at hfind
    apply hfind i0 (List.mem_range.mpr hi0)
    simp only [hbit0, hd0, Bool.true_and]
    exact beq_iff_eq.mpr htr0
  | some i =>
    have hpred := List.find?_some hfind
    simp only [Bool.and_eq_true] at hpred
    obtain ⟨hbit', hmatch⟩ := hpred
    refine ⟨i, rfl, List.mem_range.mp (List.mem_of_find?_eq_some hfind), hbit', ?_⟩
    cases hd : dp inp (mask ^^^ 2^p) i with
    | none => rw [hd] at hmatch; simp at hmatch
    | some d =>
      rw [hd] at hmatch
      exact ⟨d, rfl, beq_iff_eq.mp hmatch⟩

theorem parentOf_prev_elim (inp : SolverInput) (mask p m' p' : ℕ)
    (h : parentOf inp mask p = .prev m' p') :
    m' = mask ^^^ 2^p ∧ mask.testBit p = true ∧
      ∃ d, dp inp m' p' = some d := by
  unfold parentOf at h
  cases hd : dp inp mask p with
  | none => rw [hd] at h; simp at h
  | some v =>
    rw [hd] at h
    simp only at h
    by_cases hsing : mask = 2^p
    · rw [if_pos hsing] at h
      simp at h
    rw [if_neg hsing] at h
    obtain ⟨-, hbit, -⟩ := dp_some_cases inp mask p v hd
    cases hfind : (List.range inp.n_checkpoints).find? (fun i =>
        (mask ^^^ 2^p).testBit i &&
        (match dp inp (mask ^^^ 2^p) i with
         | none => false
         | some d => transVal inp d i p == some v)) with
    | none => rw [hfind] at h; simp at h
    | some i =>
      rw [hfind] at h
      simp only [ParentLink.prev.injEq] at h
      obtain ⟨rfl, rfl⟩ := h
      have hpred := List.find?_some hfind
      simp only [Bool.and_eq_true] at hpred
      obtain ⟨-, hmatch⟩ := hpred
      refine ⟨rfl, hbit, ?_⟩
      cases hdd : dp inp (mask ^^^ 2^p) i with
      | none => rw [hdd] at hmatch; simp at hmatch
      | some d => exact ⟨d, rfl⟩

theorem reconF_fuel (inp : SolverInput) : ∀ (mask f f' p : ℕ),
    mask ≤ f → mask ≤ f' → reconF inp f mask p = reconF inp f' mask p := by
  intro mask
  induction mask using Nat.strong_induction_on with
  | _ mask ih =>
    intro f f' p hf hf'
    rcases Nat.eq_zero_or_pos mask with rfl | hpos
    · -- mask 0: the parent link is `unvisited`, both sides are `[p]`
      have hnone : dp inp 0 p = none :=
        dp_not_guard inp 0 p (by simp [Nat.zero_testBit])
      have hpar := parentOf_of_dp_none inp 0 p hnone
      cases f with
      | zero =>
        cases f' with
        | zero => rfl
        | succ g' =>
          show [p] = p :: (match parentOf inp 0 p with
            | .fromStart => []
            | .unvisited => []
            | .prev m' p' => reconF inp g' m' p')
          rw [hpar]
      | succ g =>
        cases f' with
        | zero =>
          show (p :: match parentOf inp 0 p with
            | .fromStart => []
            | .unvisited => []
            | .prev m' p' => reconF inp g m' p') = [p]
          rw [hpar]
        | succ g' =>
          show (p :: match parentOf inp 0 p with
            | .fromStart => []
            | .unvisited => []
            | .prev m' p' => reconF inp g m' p') =
            (p :: match parentOf inp 0 p with
            | .fromStart => []
            | .unvisited => []
            | .prev m' p' => reconF inp g' m' p')
          rw [hpar]
    · rcases Nat.exists_eq_succ_of_ne_zero (show f ≠ 0 by omega) with ⟨g, rfl⟩
      rcases Nat.exists_eq_succ_of_ne_zero (show f' ≠ 0 by omega) with ⟨g', rfl⟩
      show (p :: match parentOf inp mask p with
        | .fromStart => []
        | .unvisited => []
        | .prev m' p' => reconF inp g m' p') =
        (p :: match parentOf inp mask p with
        | .fromStart => []
        | .unvisited => []
        | .prev m' p' => reconF inp g' m' p')
      cases hpar : parentOf inp mask p with
      | fromStart => rfl
      | unvisited => rfl
      | prev m' p' =>
        obtain ⟨hm', hbit, -⟩ := parentOf_prev_elim inp mask p m' p' hpar
        have hlt : m' < mask := hm' ▸ xor_two_pow_lt mask p hbit
        show p :: reconF inp g m' p' = p :: reconF inp g' m' p'
        rw [ih m' hlt g g' p' (by omega) (by omega)]

theorem recon_bits (inp : SolverInput) : ∀ (mask p : ℕ) (v : ℚ),
    dp inp mask p = some v →
    (recon inp mask p).Nodup ∧
    (∀ k, k ∈ recon inp mask p ↔ mask.testBit k = true) ∧
    (recon inp mask p).length = popcount mask := by
  intro mask
  induction mask using Nat.strong_induction_on with
  | _ mask ih =>
    intro p v h
    obtain ⟨hp, hbit, hcase⟩ := dp_some_cases inp mask p v h
    have hpos : 1 ≤ mask := by
      have := Nat.testBit_implies_ge hbit
      have h2 : (1:ℕ) ≤ 2^p := Nat.one_le_two_pow
      omega
    obtain ⟨m0, rfl⟩ : ∃ m0, mask = m0 + 1 := ⟨mask - 1, by omega⟩
    by_cases hsing : m0 + 1 = 2^p
    · have hpar : parentOf inp (m0+1) p = .fromStart := by
        rw [hsing] at h ⊢
        exact parentOf_fromStart inp p v h
      have hrec : recon inp (m0+1) p = [p] := by
        show (p :: match parentOf inp (m0+1) p with
          | .fromStart => []
          | .unvisited => []
          | .prev m' p' => reconF inp m0 m' p') = [p]
        rw [hpar]
      rw [hrec]
      refine ⟨List.nodup_singleton p, ?_, ?_⟩
      · intro k
        rw [hsing, Nat.testBit_two_pow]
        simp [eq_comm]
      · rw [hsing]
        have : popcount (2^p) = 1 := by
          have h0 : (0:ℕ).testBit p = false := Nat.zero_testBit p
          have := popcount_or_two_pow p 0 h0
          rwa [Nat.zero_or, popcount_zero] at this
        rw [this]
        rfl
    · obtain ⟨i, hpar, hiN, hbit', d, hd, htr⟩ :=
        parentOf_prev_of_dp inp (m0+1) p v h hsing
      have hm'lt : (m0+1) ^^^ 2^p < m0+1 := xor_two_pow_lt (m0+1) p hbit
      have hrec : recon inp (m0+1) p = p :: recon inp ((m0+1) ^^^ 2^p) i := by
        show (p :: match parentOf inp (m0+1) p with
          | .fromStart => []
          | .unvisited => []
          | .prev m' p' => reconF inp m0 m' p') = _
        rw [hpar]
        show p :: reconF inp m0 ((m0+1) ^^^ 2^p) i = _
        rw [reconF_fuel inp ((m0+1) ^^^ 2^p) m0 ((m0+1) ^^^ 2^p) i
          (by omega) (le_refl _)]
        rfl
      obtain ⟨ihnd, ihmem, ihlen⟩ := ih ((m0+1) ^^^ 2^p) hm'lt i d hd
      have hpbit : ((m0+1) ^^^ 2^p).testBit p = false := by
        rw [Nat.testBit_xor, hbit, Nat.testBit_two_pow_self]
        rfl
      have hpnotmem : p ∉ recon inp ((m0+1) ^^^ 2^p) i := by
        intro hmem
        rw [ihmem p] at hmem
        rw [hpbit] at hmem
        exact absurd hmem (by simp)
      rw [hrec]
      refine ⟨List.Nodup.cons hpnotmem ihnd, ?_, ?_⟩
      · intro k
        rw [List.mem_cons, ihmem k]
        by_cases hk : k = p
        · subst hk
          simp [hbit]
        · rw [testBit_xor_two_pow_of_ne (m0+1) p k hk]
          simp [hk]
      · rw [List.length_cons, ihlen]
        have hor : ((m0+1) ^^^ 2^p) ||| 2^p = m0+1 := xor_two_pow_or (m0+1) p hbit
        have := popcount_or_two_pow p ((m0+1) ^^^ 2^p) hpbit
        rw [hor] at this
        omega

theorem routeWalkP_ge_base (inp : SolverInput) (hv : ValidInput inp) :
    ∀ (l : List ℕ) (cur : ℕ) (t : ℚ) (c : ℕ) (u : ℚ), l ≠ [] →
      routeWalkP inp cur t l = some (c, u) → (inp.slot_starts 0 : ℚ) ≤ u := by
  intro l
  induction l with
  | nil => intro cur t c u hne; exact absurd rfl hne
  | cons j rest ih =>
    intro cur t c u hne h
    have h' : (match stepVisit inp j (t + inp.travel_time cur j) with
      | none => none
      | some dep => routeWalkP inp j dep rest) = some (c, u) := h
    cases hs : stepVisit inp j (t + inp.travel_time cur j) with
    | none => rw [hs] at h'; simp at h'
    | some dep =>
      rw [hs] at h'
      have hdepb : (inp.slot_starts 0 : ℚ) ≤ dep := by
        obtain ⟨hod, -⟩ := stepVisit_some inp j _ dep hs
        obtain ⟨ot, hfno, hdepeq, -⟩ := openDepart_some inp j _ dep hod
        have h1 := fno_ge_base inp hv j _ ot hfno
        have h2 : (0:ℚ) ≤ (inp.dwell : ℚ) := by exact_mod_cast hv.dwell_nonneg
        rw [hdepeq]
        linarith
      rcases rest with - | ⟨k, rest'⟩
      · simp only [routeWalkP, Option.some_inj, Prod.mk.injEq] at h'
        rw [← h'.2]
        exact hdepb
      · exact ih j dep c u (by simp) h'

theorem pruned_transfer (A B : SolverInput) (hr : Relaxation A B)
    (hvA : ValidInput A) (hvB : ValidInput B) (r : List ℕ) (f : ℚ)
    (h : PrunedFeasibleRoute A r f) :
    ∃ f', PrunedFeasibleRoute B r f' ∧ f' ≤ f := by
  obtain ⟨hne, hnd, hlt, hfin⟩ := h
  unfold routeFinishP at hfin
  cases hw : routeWalkP A START_IDX (A.start_time : ℚ) r with
  | none => rw [hw] at hfin; simp at hfin
  | some p =>
    obtain ⟨c0, t2⟩ := p
    rw [hw] at hfin
    have hl19 : ∀ x ∈ r, x < 19 := by
      intro x hx
      have := hlt x hx
      have := hvA.n_le
      omega
    obtain ⟨u1, hw1, hu12⟩ := routeWalkP_mono A B hr hvA hvB r hl19 START_IDX
      (B.start_time : ℚ) (A.start_time : ℚ) c0 t2
      (by rw [hr.start_eq]) hw
    have hc0r : c0 ∈ r := routeWalkP_last_mem A r START_IDX _ c0 t2 hw hne
    have hu1b : (A.slot_starts 0 : ℚ) ≤ u1 := by
      have := routeWalkP_ge_base B hvB r START_IDX (B.start_time : ℚ) c0 u1 hne hw1
      rw [hr.starts_eq] at this
      exact this
    obtain ⟨f', hf', hff⟩ := finishEval_mono A B hr hvA hvB u1 t2 c0 f
      (hl19 c0 hc0r) hu12 hu1b hfin
    refine ⟨f', ⟨hne, hnd, ?_, ?_⟩, hff⟩
    · rw [hr.n_eq]
      exact hlt
    · unfold routeFinishP
      rw [hw1]
      exact hf'

theorem bestState_count_pos (inp : SolverInput) (c : ℕ) (af : ℚ) (m i : ℕ)
    (h : bestState inp = some (c, af, m, i)) : 1 ≤ c := by
  obtain ⟨hc, d, hd, -⟩ := bestState_sound inp c af m i h
  obtain ⟨-, hbit, -⟩ := dp_some_cases inp m i d hd
  have h1 := Nat.testBit_implies_ge hbit
  have h2 : (1:ℕ) ≤ 2^i := Nat.one_le_two_pow
  rw [hc]
  exact popcount_pos m (by omega)

/-! ### Valid-input and relaxation facts for the seed scenarios -/

theorem rat_ite_nonneg {c : Prop} [Decidable c] {a b : ℚ} (ha : 0 ≤ a)
    (hb : 0 ≤ b) : 0 ≤ if c then a else b := by
  by_cases h : c
  · rw [if_pos h]; exact ha
  · rw [if_neg h]; exact hb

theorem validInput_inS2 : ValidInput inS2 :=
  ⟨by decide, by decide, by decide, by decide, by decide, by decide,
   by intro s hs; dsimp only [inS2]; push_cast; ring,
   by intro i j hi hj; dsimp only [inS2]; repeat' apply rat_ite_nonneg
      all_goals norm_num,
   by decide⟩

theorem validInput_inS2fast : ValidInput inS2fast :=
  ⟨by decide, by decide, by decide, by decide, by decide, by decide,
   by intro s hs; dsimp only [inS2fast, inS2]; push_cast; ring,
   by intro i j hi hj; dsimp only [inS2fast, inS2]; repeat' apply rat_ite_nonneg
      all_goals norm_num,
   by decide⟩

theorem validInput_inC1 : ValidInput inC1 :=
  ⟨by decide, by decide, by decide, by decide, by decide, by decide,
   by intro s hs; dsimp only [inC1]; push_cast; ring,
   by intro i j hi hj; dsimp only [inC1]; repeat' apply rat_ite_nonneg
      all_goals norm_num,
   by decide⟩

theorem validInput_inC2 : ValidInput inC2 :=
  ⟨by decide, by decide, by decide, by decide, by decide, by decide,
   by intro s hs; dsimp only [inC2]; push_cast; ring,
   by intro i j hi hj; dsimp only [inC2]; repeat' apply rat_ite_nonneg
      all_goals norm_num,
   by decide⟩

theorem validInput_inC6 : ValidInput inC6 :=
  ⟨by decide, by decide, by decide, by decide, by decide, by decide,
   by intro s hs; dsimp only [inC6, inS2]; push_cast; ring,
   by intro i j hi hj; dsimp only [inC6, inS2]; repeat' apply rat_ite_nonneg
      all_goals norm_num,
   by decide⟩

theorem relax_inS2_inS2fast : Relaxation inS2 inS2fast :=
  ⟨rfl, rfl, fun s => rfl, rfl, rfl, rfl, fun c s h => h, fun s h => h,
   by intro i j; dsimp only [inS2fast, inS2]; split_ifs <;> norm_num⟩

/-! ### Unconditional shape of `solve` -/

theorem solve_eq_of_bestState (inp : SolverInput) (c : ℕ) (af : ℚ) (m i : ℕ)
    (h : bestState inp = some (c, af, m, i)) :
    solve inp = ⟨c, (recon inp m i).reverse, af⟩ := by
  unfold solve
  rw [h]

theorem solve_eq_of_bestState_none (inp : SolverInput)
    (h : bestState inp = none) : solve inp = ⟨0, [], 0⟩ := by
  unfold solve
  rw [h]

/-- The code's slot-time computation agrees with the spec's half-hour rule on
nonnegative arrivals (where C truncation is the floor). -/
theorem slotTimeOf_eq_canonical (t : ℚ) (ht : 0 ≤ t) :
    slotTimeOf t = canonicalSpec t := by
  have hw0 : (0:ℤ) ≤ ⌊t⌋ := by
    rw [Int.le_floor]
    exact_mod_cast ht
  have hwhole : cIntOfRat t = ⌊t⌋ := cIntOfRat_eq_floor t ht
  unfold slotTimeOf canonicalSpec canonicalZ
  rw [hwhole, Int.tdiv_eq_ediv hw0 (by norm_num), Int.tmod_eq_emod hw0 (by norm_num)]
  ring_nf

set_option maxRecDepth 40000 in
set_option maxHeartbeats 1600000 in
unseal Rat.add Rat.mul Rat.inv Rat.sub in
/-- In scenario S1 every slot of the only checkpoint is closed, so no route
is feasible. -/
theorem no_feasible_inS1 : ∀ (r : List ℕ) (f : ℚ), ¬ FeasibleRoute inS1 r f := by
  intro r f hfr
  obtain ⟨hne, -, hlt, hfin⟩ := hfr
  cases r with
  | nil => exact hne rfl
  | cons c rest =>
    have h1 : inS1.n_checkpoints = 1 := rfl
    have hc1 : c < inS1.n_checkpoints := hlt c (List.mem_cons_self c rest)
    have hc : c = 0 := by omega
    subst hc
    have hstep : openDepart inS1 0
        ((inS1.start_time : ℚ) + inS1.travel_time START_IDX 0) = none := by decide
    have hwalk : routeWalk inS1 START_IDX (inS1.start_time : ℚ) (0 :: rest) = none := by
      show (match openDepart inS1 0 ((inS1.start_time : ℚ) +
          inS1.travel_time START_IDX 0) with
        | none => none
        | some dep => routeWalk inS1 0 dep rest) = none
      rw [hstep]
    unfold routeFinish at hfin
    rw [hwalk] at hfin
    simp at hfin

/-! ### The claims -/

/-- C1 (amended): the returned `count` is maximal over the *pruned-feasible*
routes — feasible routes all of whose prefixes keep Finish directly reachable
(`can_reach_finish`) at their departure times.  The original claim's
maximality over all feasible routes is refuted by `claim_C1_cex`. -/
theorem claim_C1 (inp : SolverInput) (hv : ValidInput inp) (r : List ℕ) (f : ℚ)
    (hpr : PrunedFeasibleRoute inp r f) : r.length ≤ (solve inp).count := by
  obtain ⟨c, bf, m, i, hb, hle, -⟩ := solve_bound inp hv r f hpr
  rw [solve_eq_of_bestState inp c bf m i hb]
  exact hle

set_option maxRecDepth 40000 in
set_option maxHeartbeats 3200000 in
unseal Rat.add Rat.mul Rat.inv Rat.sub in
/-- C1 counterexample: on the valid input `inC1` (whose travel times satisfy
no triangle inequality) the route `[0, 1]` is feasible with finish time 600,
yet the forward pruning discards every state and the solver returns
`count = 0`. -/
theorem claim_C1_cex :
    ValidInput inC1 ∧ FeasibleRoute inC1 [0, 1] 600 ∧ (solve inC1).count = 0 ∧
      (solve inC1).count < [0, 1].length :=
  ⟨validInput_inC1, ⟨by decide, by decide, by decide, by decide⟩,
   by decide, by decide⟩

set_option maxRecDepth 40000 in
set_option maxHeartbeats 1600000 in
unseal Rat.add Rat.mul Rat.inv Rat.sub in
theorem claim_C1_witness : [0].length ≤ (solve inS2).count :=
  claim_C1 inS2 validInput_inS2 [0] 617
    ⟨by decide, by decide, by decide, by decide⟩

/-- C2 (amended): among the *pruned-feasible* routes with exactly `count`
checkpoints, the returned `finish_time` is minimal.  Minimality over all
feasible routes of that count is refuted by `claim_C2_cex`. -/
theorem claim_C2 (inp : SolverInput) (hv : ValidInput inp) (r : List ℕ) (f : ℚ)
    (hpr : PrunedFeasibleRoute inp r f) (hlen : r.length = (solve inp).count) :
    (solve inp).finish_time ≤ f := by
  obtain ⟨c, bf, m, i, hb, -, himp⟩ := solve_bound inp hv r f hpr
  rw [solve_eq_of_bestState inp c bf m i hb] at hlen ⊢
  exact himp hlen

set_option maxRecDepth 40000 in
set_option maxHeartbeats 3200000 in
unseal Rat.add Rat.mul Rat.inv Rat.sub in
/-- C2 counterexample: on the valid input `inC2` the solver returns the
two-checkpoint route `[2, 1]` finishing at 620, while the feasible
two-checkpoint route `[0, 1]` finishes at 600 — the pruning discarded it, so
the returned finish time is not minimal over feasible routes of the returned
count. -/
theorem claim_C2_cex :
    ValidInput inC2 ∧ FeasibleRoute inC2 [0, 1] 600 ∧
      [0, 1].length = (solve inC2).count ∧ (solve inC2).finish_time = 620 ∧
      ¬ ((solve inC2).finish_time ≤ 600) := by
  have hs : solve inC2 = ⟨2, [2, 1], 620⟩ := by decide
  refine ⟨validInput_inC2, ⟨by decide, by decide, by decide, by decide⟩,
    ?_, ?_, ?_⟩
  · rw [hs]
    rfl
  · rw [hs]
  · rw [hs]
    norm_num

set_option maxRecDepth 40000 in
set_option maxHeartbeats 1600000 in
unseal Rat.add Rat.mul Rat.inv Rat.sub in
theorem claim_C2_witness : (solve inS2).finish_time ≤ 617 :=
  claim_C2 inS2 validInput_inS2 [0] 617
    ⟨by decide, by decide, by decide, by decide⟩ (by decide)

set_option maxRecDepth 40000 in
set_option maxHeartbeats 1600000 in
unseal Rat.add Rat.mul Rat.inv Rat.sub in
/-- C3: the slot-index function reports `none` below the first slot start;
otherwise it clamps to `M - 1` when the canonical half-hour time exceeds the
last slot start and else returns the unique slot whose start equals the
canonical time; the canonical time follows the `m > 30` half-hour rule on
`⌊t⌋` (minute-part 30 stays at the hour, 31 advances to the half hour), the
code's truncating computation agrees with it on nonnegative arrivals, and
fractional parts below the next whole minute never change the slot. -/
theorem claim_C3 (inp : SolverInput) (hv : ValidInput inp) (t : ℚ) :
    (t < (inp.slot_starts 0 : ℚ) → arrival_to_slot_index inp t = none) ∧
    ((inp.slot_starts 0 : ℚ) ≤ t →
      (inp.slot_starts (inp.n_slots - 1) < canonicalSpec t →
        arrival_to_slot_index inp t = some (inp.n_slots - 1)) ∧
      (canonicalSpec t ≤ inp.slot_starts (inp.n_slots - 1) →
        ∃ s, arrival_to_slot_index inp t = some s ∧ s < inp.n_slots ∧
          inp.slot_starts s = canonicalSpec t ∧
          ∀ s', s' < inp.n_slots → inp.slot_starts s' = canonicalSpec t →
            s' = s)) ∧
    (0 ≤ t → slotTimeOf t = canonicalSpec t) ∧
    (⌊t⌋ % 60 = 30 → canonicalSpec t = 60 * (⌊t⌋ / 60)) ∧
    (⌊t⌋ % 60 = 31 → canonicalSpec t = 60 * (⌊t⌋ / 60) + 30) ∧
    arrival_to_slot_index inp t = arrival_to_slot_index inp ((⌊t⌋ : ℤ) : ℚ) := by
  have hcs : canonicalSpec t = canonicalZ ⌊t⌋ := rfl
  refine ⟨slotIndex_none_of_lt inp t, ?_, slotTimeOf_eq_canonical t, ?_, ?_, ?_⟩
  · intro ht
    have hwb : inp.slot_starts 0 ≤ ⌊t⌋ := by
      rw [Int.le_floor]
      exact_mod_cast ht
    have hcanb : inp.slot_starts 0 ≤ canonicalZ ⌊t⌋ := by
      rw [← canonicalZ_fixed (inp.slot_starts 0) hv.base_hour]
      exact canonicalZ_mono _ _ hwb
    obtain ⟨-, -, hc30⟩ := canonicalZ_facts ⌊t⌋
    have hb30 : (30:ℤ) ∣ inp.slot_starts 0 := by
      obtain ⟨c, hcc⟩ := Int.dvd_of_emod_eq_zero hv.base_hour
      exact ⟨2 * c, by omega⟩
    obtain ⟨q, hq⟩ : ∃ q : ℤ, canonicalZ ⌊t⌋ - inp.slot_starts 0 = 30 * q := by
      obtain ⟨c1, h1⟩ := hc30
      obtain ⟨c2, h2⟩ := hb30
      exact ⟨c1 - c2, by omega⟩
    have hq0 : 0 ≤ q := by omega
    have hqdiv : (canonicalZ ⌊t⌋ - inp.slot_starts 0) / 30 = q := by
      rw [hq]
      exact Int.mul_ediv_cancel_left _ (by norm_num)
    have hcf := slotIndex_closed_form inp hv t ht
    have hM1 := hv.m_pos
    have hlast := hv.consecutive (inp.n_slots - 1) (by omega)
    have hcastM : ((inp.n_slots - 1 : ℕ) : ℤ) = (inp.n_slots : ℤ) - 1 := by omega
    constructor
    · intro hgt
      rw [hcs] at hgt
      rw [hcf, hqdiv]
      have hqgt : ((inp.n_slots : ℤ) - 1) < q := by
        rw [hlast, hcastM] at hgt
        omega
      congr 1
      apply min_eq_left
      omega
    · intro hle
      rw [hcs] at hle
      have hqle : q ≤ (inp.n_slots : ℤ) - 1 := by
        rw [hlast, hcastM] at hle
        omega
      refine ⟨q.toNat, ?_, by omega, ?_, ?_⟩
      · rw [hcf, hqdiv]
        congr 1
        apply min_eq_right
        omega
      · rw [hcs, hv.consecutive q.toNat (by omega)]
        omega
      · intro s' hs' hstart
        rw [hcs, hv.consecutive s' hs'] at hstart
        omega
  · intro h30
    rw [hcs]
    unfold canonicalZ
    rw [h30]
    norm_num
  · intro h31
    rw [hcs]
    unfold canonicalZ
    rw [h31]
    norm_num
  · by_cases hb : t < (inp.slot_starts 0 : ℚ)
    · rw [slotIndex_none_of_lt inp t hb, slotIndex_none_of_lt inp _ ?_]
      have hfl : ⌊t⌋ < inp.slot_starts 0 := Int.floor_lt.mpr hb
      exact_mod_cast hfl
    · push_neg at hb
      have hb' : (inp.slot_starts 0 : ℚ) ≤ ((⌊t⌋ : ℤ) : ℚ) := by
        have hfl : inp.slot_starts 0 ≤ ⌊t⌋ := by
          rw [Int.le_floor]
          exact_mod_cast hb
        exact_mod_cast hfl
      rw [slotIndex_closed_form inp hv t hb, slotIndex_closed_form inp hv _ hb',
        Int.floor_intCast]

set_option maxRecDepth 40000 in
set_option maxHeartbeats 1600000 in
unseal Rat.add Rat.mul Rat.inv Rat.sub in
theorem claim_C3_witness : arrival_to_slot_index inS2 599 = none :=
  (claim_C3 inS2 validInput_inS2 599).1 (by decide)

set_option maxRecDepth 40000 in
set_option maxHeartbeats 1600000 in
unseal Rat.add Rat.mul Rat.inv Rat.sub in
/-- C4: `find_next_open_time` scans slot indices upward from the arrival's
slot (clamped to 0 when the slot index is `none`), returning
`max(arrival, slot_starts[s])` for the first open slot `s` and `none` when
every slot at or after that index is closed; in scenario S3 the arrival at
checkpoint 0 is 610, the open time 630, and the departure 637. -/
theorem claim_C4 (inp : SolverInput) (c : ℕ) (a : ℚ) :
    (find_next_open_time inp c a = none ↔
      ∀ s, (arrival_to_slot_index inp a).getD 0 ≤ s → s < inp.n_slots →
        inp.open_at c s = false) ∧
    (∀ v, find_next_open_time inp c a = some v →
      ∃ s, (arrival_to_slot_index inp a).getD 0 ≤ s ∧ s < inp.n_slots ∧
        inp.open_at c s = true ∧ v = max a (inp.slot_starts s : ℚ) ∧
        ∀ s', (arrival_to_slot_index inp a).getD 0 ≤ s' → s' < s →
          inp.open_at c s' = false) ∧
    ((inS3.start_time : ℚ) + inS3.travel_time START_IDX 0 = 610 ∧
      find_next_open_time inS3 0 610 = some 630 ∧
      openDepart inS3 0 610 = some 637) :=
  ⟨fno_none_iff inp c a, fun v hv => fno_some_elim inp c a v hv,
   by decide, by decide, by decide⟩

/-- C5: every populated DP state `(mask, j)` with value `v` passes the
forward-pruning checks: Finish is directly reachable from `j` departing at
`v` (`can_reach_finish`), `v` is within the event window, and the Finish
arrival waits inside an open Finish slot no later than `end_time`. -/
theorem claim_C5 (inp : SolverInput) (mask j : ℕ) (v : ℚ)
    (h : dp inp mask j = some v) :
    can_reach_finish inp v j = true ∧ v ≤ (inp.end_time : ℚ) ∧
    v + inp.travel_time j FINISH_IDX ≤ (inp.end_time : ℚ) ∧
    ∃ slot, arrival_to_slot_index inp (v + inp.travel_time j FINISH_IDX) =
        some slot ∧
      ∃ s, slot ≤ s ∧ s < inp.n_slots ∧ inp.finish_open s = true ∧
        max (v + inp.travel_time j FINISH_IDX) (inp.slot_starts s : ℚ) ≤
          (inp.end_time : ℚ) := by
  obtain ⟨hcrf, hle⟩ := dp_some_invariant inp mask j v h
  obtain ⟨h1, slot, hsi, hsM, s, hs1, hs2, hs3, hmax⟩ := crf_elim inp v j hcrf
  exact ⟨hcrf, hle, h1, slot, hsi, s, hs1, hs2, hs3, hmax⟩

set_option maxRecDepth 40000 in
set_option maxHeartbeats 1600000 in
unseal Rat.add Rat.mul Rat.inv Rat.sub in
theorem claim_C5_witness : can_reach_finish inS2 612 0 = true :=
  (claim_C5 inS2 1 0 612 (by decide)).1

/-- C6 (amended): the output array is `[count, route_length, t]` followed by
the `route_length` checkpoint indices, where `t` is `finish_time * 100`
truncated toward zero by the C `int` cast — the floor for nonnegative finish
times, not the rounded value (refuted for rounding by `claim_C6_cex`). -/
theorem claim_C6 (inp : SolverInput) (h : 0 ≤ (solve inp).finish_time) :
    solveOutput inp =
      [((solve inp).count : ℤ), ((solve inp).route.length : ℤ),
        ⌊(solve inp).finish_time * 100⌋] ++
        (solve inp).route.map (fun c => (c : ℤ)) := by
  unfold solveOutput
  rw [cIntOfRat_eq_floor _ (mul_nonneg h (by norm_num))]

set_option maxRecDepth 40000 in
set_option maxHeartbeats 3200000 in
unseal Rat.add Rat.mul Rat.inv Rat.sub in
/-- C6 counterexample: on `inC6` the finish time is 617.009 minutes; the
produced header entry is 61700 (truncation), while rounding finish_time·100
gives 61701. -/
theorem claim_C6_cex :
    solveOutput inC6 = [1, 1, 61700, 0] ∧
    (solve inC6).finish_time = 617009/1000 ∧
    round ((solve inC6).finish_time * 100) = 61701 := by
  have hs : solve inC6 = ⟨1, [0], 617009/1000⟩ := by decide
  refine ⟨by decide, ?_, ?_⟩
  · rw [hs]
  · rw [hs]
    show round ((617009:ℚ)/1000 * 100) = 61701
    rw [round_eq, Int.floor_eq_iff]
    constructor <;> norm_num

set_option maxRecDepth 40000 in
set_option maxHeartbeats 1600000 in
unseal Rat.add Rat.mul Rat.inv Rat.sub in
theorem claim_C6_witness :
    0 ≤ (solve inS2).finish_time ∧
    solveOutput inS2 =
      [((solve inS2).count : ℤ), ((solve inS2).route.length : ℤ),
        ⌊(solve inS2).finish_time * 100⌋] ++
        (solve inS2).route.map (fun c => (c : ℤ)) :=
  ⟨by decide, claim_C6 inS2 (by decide)⟩

/-- C7: when no route at all is feasible, `solve` returns count 0, an empty
route and finish time 0 — infeasibility is a regular result, not an error. -/
theorem claim_C7 (inp : SolverInput) (h : ∀ r f, ¬ FeasibleRoute inp r f) :
    solve inp = ⟨0, [], 0⟩ := by
  cases hb : bestState inp with
  | none => exact solve_eq_of_bestState_none inp hb
  | some b =>
    obtain ⟨c, af, m, i⟩ := b
    obtain ⟨r, hpr, -⟩ := solve_achieves inp c af m i hb
    exact absurd (pruned_imp_feasible inp r af hpr) (h r af)

theorem claim_C7_witness : solve inS1 = ⟨0, [], 0⟩ :=
  claim_C7 inS1 no_feasible_inS1

/-- C8: the returned route is well-formed on every input: its length equals
`count`, it has no duplicate entries, and every entry is an intermediate
checkpoint index below `n_checkpoints`. -/
theorem claim_C8 (inp : SolverInput) :
    (solve inp).route.length = (solve inp).count ∧ (solve inp).route.Nodup ∧
      ∀ c ∈ (solve inp).route, c < inp.n_checkpoints := by
  cases hb : bestState inp with
  | none =>
    rw [solve_eq_of_bestState_none inp hb]
    exact ⟨rfl, List.nodup_nil, by intro c hc; simp at hc⟩
  | some b =>
    obtain ⟨c, af, m, i⟩ := b
    obtain ⟨hc, d, hd, -⟩ := bestState_sound inp c af m i hb
    obtain ⟨hnd, hmem, hlen⟩ := recon_bits inp m i d hd
    rw [solve_eq_of_bestState inp c af m i hb]
    refine ⟨?_, ?_, ?_⟩
    · show (recon inp m i).reverse.length = c
      rw [List.length_reverse, hlen, hc]
    · exact List.nodup_reverse.mpr hnd
    · intro x hx
      have hx' : x ∈ recon inp m i := List.mem_reverse.mp hx
      exact dp_bits_lt inp m i d hd x ((hmem x).mp hx')

/-- C9: relaxing an input (opening more slots or lowering travel times while
keeping everything else fixed) cannot decrease the returned count, and for an
equal count cannot increase the returned finish time. -/
theorem claim_C9 (A B : SolverInput) (hvA : ValidInput A) (hvB : ValidInput B)
    (hr : Relaxation A B) :
    (solve A).count ≤ (solve B).count ∧
    ((solve B).count = (solve A).count →
      (solve B).finish_time ≤ (solve A).finish_time) := by
  cases hbA : bestState A with
  | none =>
    rw [solve_eq_of_bestState_none A hbA]
    constructor
    · exact Nat.zero_le _
    · intro h0
      cases hbB : bestState B with
      | none => rw [solve_eq_of_bestState_none B hbB]
      | some bB =>
        obtain ⟨cB, afB, mB, iB⟩ := bB
        rw [solve_eq_of_bestState B cB afB mB iB hbB] at h0
        have hpos := bestState_count_pos B cB afB mB iB hbB
        exact absurd (show cB = 0 from h0) (by omega)
  | some bA =>
    obtain ⟨cA, afA, mA, iA⟩ := bA
    rw [solve_eq_of_bestState A cA afA mA iA hbA]
    obtain ⟨rA, hprA, hlenA⟩ := solve_achieves A cA afA mA iA hbA
    obtain ⟨f', hprB, hff⟩ := pruned_transfer A B hr hvA hvB rA afA hprA
    obtain ⟨cB, bfB, mB, iB, hbB, hle, himp⟩ := solve_bound B hvB rA f' hprB
    rw [solve_eq_of_bestState B cB bfB mB iB hbB]
    constructor
    · show cA ≤ cB
      omega
    · intro heq
      have heq' : cB = cA := heq
      show bfB ≤ afA
      exact le_trans (himp (by omega)) hff

theorem claim_C9_witness :
    (solve inS2).count ≤ (solve inS2fast).count ∧
    ((solve inS2fast).count = (solve inS2).count →
      (solve inS2fast).finish_time ≤ (solve inS2).finish_time) :=
  claim_C9 inS2 inS2fast validInput_inS2 validInput_inS2fast relax_inS2_inS2fast

/-- C10: when the Finish arrival `t + T[i, Finish]` falls strictly below the
first slot start, `can_reach_finish` reports infeasible (its below-range slot
index is not clamped), even though `find_next_open_time` at the same arrival
clamps the index to 0 and succeeds whenever slot 0 is open — the asymmetry
that prunes early Finish arrivals instead of waiting. -/
theorem claim_C10 (inp : SolverInput) (t : ℚ) (i : ℕ)
    (h : t + inp.travel_time i FINISH_IDX < (inp.slot_starts 0 : ℚ)) :
    can_reach_finish inp t i = false ∧
    ∀ c, inp.open_at c 0 = true → 1 ≤ inp.n_slots →
      find_next_open_time inp c (t + inp.travel_time i FINISH_IDX) =
        some (max (t + inp.travel_time i FINISH_IDX) (inp.slot_starts 0 : ℚ)) := by
  have hsi : arrival_to_slot_index inp (t + inp.travel_time i FINISH_IDX) =
      none := slotIndex_none_of_lt inp _ h
  constructor
  · unfold can_reach_finish
    by_cases h1 : t + inp.travel_time i FINISH_IDX > (inp.end_time : ℚ)
    · rw [if_pos h1]
    · rw [if_neg h1, hsi]
  · intro c hopen hM
    unfold find_next_open_time
    rw [hsi]
    simp only [Option.getD_none, Nat.sub_zero]
    obtain ⟨M0, hM0⟩ : ∃ M0, inp.n_slots = M0 + 1 := ⟨inp.n_slots - 1, by omega⟩
    rw [hM0, List.range'_succ, List.find?_cons_of_pos _ (by exact hopen)]
    rfl

set_option maxRecDepth 40000 in
set_option maxHeartbeats 1600000 in
unseal Rat.add Rat.mul Rat.inv Rat.sub in
theorem claim_C10_witness :
    can_reach_finish inS2 590 0 = false ∧
    find_next_open_time inS2 0 ((590:ℚ) + inS2.travel_time 0 FINISH_IDX) =
      some (max ((590:ℚ) + inS2.travel_time 0 FINISH_IDX)
        (inS2.slot_starts 0 : ℚ)) := by
  obtain ⟨h1, h2⟩ := claim_C10 inS2 590 0 (by decide)
  exact ⟨h1, h2 0 (by decide) (by decide)⟩
